import Mathlib

/-!
Verification of the swim-pacer HTML synchronisation scripts.

The repository holds two small Python scripts:

* `sync_check.py` — extracts a marker-delimited region from the standalone
  document `config_interface.html` (`extract_html_from_standalone`), extracts
  the raw-string literal body from the firmware source `swim_pacer.ino`
  (`extract_html_from_ino`), normalises both (`normalize_html`) and compares
  them (`compare_html`).
* `update_esp32_html.py` — splices the standalone document's (stripped) whole
  content into the firmware literal (`update_esp32_html`, fed by
  `extract_html_content`).

Both scripts treat files as opaque text, so the embedding works on
`List Char`.  Python's `str.find(pat, k)` is modelled by `findSub` /
`findSubFrom`, slicing `s[a:b]` by `sliceList`, `str.strip()` by `stripList`
(over the ASCII whitespace class, which is all these inputs use), and the
three regular expressions are compiled by hand into first-occurrence searches,
as justified in the doc comments of `removeComments`, `collapseWs`,
`collapseTagWs` and `extract_html_from_ino`.
-/

namespace SwimPacer

/-- Whitespace class used by Python's `\s` and `str.strip()` on the ASCII
range: space, tab, newline, carriage return, vertical tab and form feed. -/
def pyWs (c : Char) : Bool :=
  c == ' ' || c == '\t' || c == '\n' || c == '\r' || c == '\x0b' || c == '\x0c'

/-- The pattern `pat` occurs in `s` starting at index `i`
(equivalently: `pat` is an initial segment of `s.drop i`). -/
def listAt (pat s : List Char) (i : Nat) : Prop :=
  (s.drop i).take pat.length = pat

instance (pat s : List Char) (i : Nat) : Decidable (listAt pat s i) := by
  unfold listAt; infer_instance

/-- Helper for `findSub`: scan `s` position by position, carrying the absolute
index `i` of the current position. -/
def findSubAux (pat : List Char) : List Char → Nat → Option Nat
  | [], i => if ([] : List Char).take pat.length = pat then some i else none
  | c :: cs, i =>
      if (c :: cs).take pat.length = pat then some i else findSubAux pat cs (i + 1)

/-- Index of the first occurrence of `pat` in `s`: Python's `s.find(pat)`,
with `none` in place of `-1`. -/
def findSub (pat s : List Char) : Option Nat :=
  findSubAux pat s 0

/-- Index of the first occurrence of `pat` in `s` at or after position `k`:
Python's `s.find(pat, k)`, with `none` in place of `-1`. -/
def findSubFrom (pat s : List Char) (k : Nat) : Option Nat :=
  (findSub pat (s.drop k)).map (· + k)

/-- Whether `pat` occurs anywhere in `s` (Python's `pat in s`). -/
def containsSub (pat s : List Char) : Bool :=
  (findSub pat s).isSome

/-- Python slice `s[a:b]` for natural indices (`b ≤ a` yields `[]`). -/
def sliceList (s : List Char) (a b : Nat) : List Char :=
  (s.drop a).take (b - a)

/-- Drop leading whitespace (`str.lstrip()`). -/
def dropLeadingWs (s : List Char) : List Char :=
  s.dropWhile pyWs

/-- Drop trailing whitespace (`str.rstrip()`). -/
def dropTrailWs (s : List Char) : List Char :=
  (s.reverse.dropWhile pyWs).reverse

/-- Python's `str.strip()`. -/
def stripList (s : List Char) : List Char :=
  dropTrailWs (dropLeadingWs s)

/-- Length of the leading whitespace run of `s` (what the greedy `\s*`
consumes at the front of `s`). -/
def countLeadingWs (s : List Char) : Nat :=
  (s.takeWhile pyWs).length

/-! Fixed tokens of the two scripts. -/

/-- Start sentinel of the standalone document (`sync_check.py`, line 21). -/
def startMarker : List Char :=
  "<!-- ========== SYNC MARKER: START ESP32 HTML ========== -->".toList

/-- End sentinel, shared by `sync_check.py` (line 22) and
`update_esp32_html.py` (line 30). -/
def endMarker : List Char :=
  "<!-- ========== SYNC MARKER: END ESP32 HTML ========== -->".toList

/-- The literal text the comment-stripping lookahead scans for. -/
def syncMarkerTok : List Char := "SYNC MARKER".toList

/-- HTML comment opening delimiter. -/
def commentOpen : List Char := "<!--".toList

/-- HTML comment closing delimiter. -/
def commentClose : List Char := "-->".toList

/-- Handler-routine opening (`void handleRoot() {`) from the firmware
extractor's regex (`sync_check.py`, line 47). -/
def handlerTok : List Char := "void handleRoot() \x7b".toList

/-- Raw-string-literal assignment token `String html = R"(`, searched by both
the firmware extractor and the splicer. -/
def assignTok : List Char := "String html = R\"(".toList

/-- Literal-closing token plus statement terminator `)";` (the firmware
extractor's closing pattern). -/
def closeTok : List Char := ")\";".toList

/-- The splicer's closing pattern `)";` followed by a newline
(`update_esp32_html.py`, line 35 searches for `')";\n'`). -/
def closeNlTok : List Char := ")\";\n".toList

/-! The normaliser `normalize_html` (`sync_check.py`, lines 57–69).

Its first pass is `re.sub(r'<!--(?!.*SYNC MARKER).*?-->', '', s, flags=re.DOTALL)`.
Under `re.DOTALL` the negative lookahead `(?!.*SYNC MARKER)`, anchored just
after a matched `<!--`, fails exactly when the literal text `SYNC MARKER`
occurs anywhere in the remainder of the whole input (not merely inside the
comment), and `.*?-->` then consumes up to and including the first `-->` at or
after that point.  `re.sub` scans left to right, advancing one character on
failure and past the whole match on success.  `rcFuel` implements that scan
with an explicit fuel argument (one unit per scanning step, so `s.length`
units always suffice) to keep the function structurally recursive. -/

/-- Fuelled scanner for the comment-removal pass of `normalize_html`. -/
def rcFuel : Nat → List Char → List Char
  | 0, s => s
  | _ + 1, [] => []
  | f + 1, c :: cs =>
      if (c :: cs).take 4 = commentOpen ∧ containsSub syncMarkerTok ((c :: cs).drop 4) = false then
        match findSub commentClose ((c :: cs).drop 4) with
        | some k => rcFuel f ((c :: cs).drop (4 + k + 3))
        | none => c :: rcFuel f cs
      else c :: rcFuel f cs

/-- Comment-removal pass of `normalize_html` (the `re.sub` on line 63 of
`sync_check.py`). -/
def removeComments (s : List Char) : List Char :=
  rcFuel s.length s

/-- Whitespace collapsing pass `re.sub(r'\s+', ' ', s)` (`sync_check.py`,
line 66): every maximal whitespace run becomes a single space.  The scan
emits the space at the last character of each run, which keeps the recursion
structural. -/
def collapseWs : List Char → List Char
  | [] => []
  | [c] => if pyWs c then [' '] else [c]
  | c :: d :: rest =>
      if pyWs c then
        if pyWs d then collapseWs (d :: rest)
        else ' ' :: collapseWs (d :: rest)
      else c :: collapseWs (d :: rest)

/-- Helper for `collapseTagWs`: if `s` begins with one or more whitespace
characters followed by `<`, return the remainder after that `<`. -/
def wsThenLt : List Char → Option (List Char)
  | [] => none
  | [_] => none
  | c :: d :: r => if pyWs c then (if d = '<' then some r else wsThenLt (d :: r)) else none

/-- Fuelled scanner for `re.sub(r'>\s+<', '><', s)` (`sync_check.py`,
line 67).  A match needs a `>`, a nonempty whitespace run and a `<` (backtracking
inside `\s+` cannot help, because no shorter run is followed by `<` when the
maximal one is not); `re.sub` resumes scanning after the consumed `<`.  Fuel
decreases once per scanning step, so `s.length` units always suffice. -/
def ctwFuel : Nat → List Char → List Char
  | 0, s => s
  | _ + 1, [] => []
  | f + 1, c :: cs =>
      if c = '>' then
        match wsThenLt cs with
        | some r => '>' :: '<' :: ctwFuel f r
        | none => c :: ctwFuel f cs
      else c :: ctwFuel f cs

/-- Inter-tag whitespace pass of `normalize_html` (line 67 of
`sync_check.py`). -/
def collapseTagWs (s : List Char) : List Char :=
  ctwFuel s.length s

/-- The normaliser `normalize_html` (`sync_check.py`, lines 57–69): empty
input short-circuits to empty output (`if not html_content`), otherwise
comment removal, whitespace collapsing, inter-tag whitespace removal, then
`strip()`. -/
def normalize_html (s : List Char) : List Char :=
  if s.isEmpty then []
  else stripList (collapseTagWs (collapseWs (removeComments s)))

/-- The standalone extractor `extract_html_from_standalone` (`sync_check.py`,
lines 11–35), applied to the file's content.  Mirrors the Python exactly:
find both markers from position 0; if either is missing return `None`;
otherwise re-seat the start index just after the first newline at or after
the start marker's position (Python's `content.find('\n', start_idx) + 1`,
which is `0` when there is no such newline since `find` returns `-1`), slice
up to the end marker's position and strip. -/
def extract_html_from_standalone (content : List Char) : Option (List Char) :=
  match findSub startMarker content, findSub endMarker content with
  | some s, some e =>
      let s2 : Nat :=
        match findSubFrom ['\n'] content s with
        | some n => n + 1
        | none => 0
      some (stripList (sliceList content s2 e))
  | _, _ => none

/-- The firmware extractor `extract_html_from_ino` (`sync_check.py`, lines
37–55), applied to the file's content.  The Python code runs
`re.search(r'void handleRoot\(\) \{[\s\S]*?String html = R"\(\s*([\s\S]*?)\s*\)";', content)`
and returns `match.group(1).strip()`.

That search compiles to first-occurrence scans, as follows.  `re.search`
returns the leftmost position where the whole pattern matches; the pattern
starts with the literal `handlerTok`, and if the tail of the pattern fails
after the first occurrence of `handlerTok` it fails after every later one
(the tail only asks for tokens occurring at or after the current position),
so the match position is the first occurrence of `handlerTok` or the search
fails outright.  The lazy `[\s\S]*?` then stops at the first occurrence of
`assignTok` after the handler token (again, if no closing token follows that
occurrence none follows a later one).  The greedy `\s*` consumes the maximal
whitespace run after `assignTok`; shrinking it cannot rescue a failed tail,
because `)";` starts with a non-whitespace character, so the first `)";`
at or after the run's end (position `p`) is also the first at or after the
run's start.  The lazy capture group then ends at the earliest position from
which whitespace followed by `)";` matches, i.e. the first `)";` at or after
`p` minus the whitespace run immediately preceding it; so `group(1)` is the
slice from `p` to that `)";` with trailing whitespace removed, and the final
`.strip()` is applied on top. -/
def extract_html_from_ino (content : List Char) : Option (List Char) :=
  match findSub handlerTok content with
  | none => none
  | some i =>
      match findSubFrom assignTok content (i + handlerTok.length) with
      | none => none
      | some j =>
          let p : Nat := j + assignTok.length + countLeadingWs (content.drop (j + assignTok.length))
          match findSubFrom closeTok content p with
          | none => none
          | some q => some (stripList (dropTrailWs (sliceList content p q)))

/-- `extract_html_content` (`update_esp32_html.py`, lines 8–11): the whole
standalone file's content, stripped. -/
def extract_html_content (s : List Char) : List Char :=
  stripList s

/-- The splicer `update_esp32_html` (`update_esp32_html.py`, lines 13–48) as
a pure function from the firmware document's content and the new literal body
to the rewritten content; `none` models the `ValueError` paths, on which the
Python function raises before its single write.  The Python code finds the
first `String html = R"(` (a regex with every metacharacter escaped, hence a
plain substring search) and takes `start_pos` at its end, then
`find(endMarker, start_pos)`, then `find(')";\n', end_marker_in_ino)`, and
writes `content[:start_pos] + "\n" + html + "\n" + content[closing_pos:]`. -/
def update_esp32_html (inoContent htmlContent : List Char) : Option (List Char) :=
  match findSub assignTok inoContent with
  | none => none
  | some s =>
      match findSubFrom endMarker inoContent (s + assignTok.length) with
      | none => none
      | some e =>
          match findSubFrom closeNlTok inoContent e with
          | none => none
          | some c =>
              some (inoContent.take (s + assignTok.length) ++
                    '\n' :: (htmlContent ++ '\n' :: inoContent.drop c))

/-- Content of the firmware document on disk after running the splicer: the
rewritten content on success, the unchanged original when the splicer raises
(the write on line 47 of `update_esp32_html.py` happens only after all three
searches succeed). -/
def runUpdate (inoContent htmlContent : List Char) : List Char :=
  (update_esp32_html inoContent htmlContent).getD inoContent

/-- The `main` flow of `update_esp32_html.py` on file contents: extract the
standalone document's whole content (stripped) and splice it in. -/
def run_update_pipeline (inoContent standaloneContent : List Char) : Option (List Char) :=
  update_esp32_html inoContent (extract_html_content standaloneContent)

/-- First index at which the two lists differ, scanning only the overlapping
length: the `for i, (a, b) in enumerate(zip(...))` loop of `compare_html`
(`sync_check.py`, lines 95–102). -/
def firstDiffAux : List Char → List Char → Nat → Option Nat
  | x :: xs, y :: ys, i => if x ≠ y then some i else firstDiffAux xs ys (i + 1)
  | _, _, _ => none

/-- The comparator `compare_html` (`sync_check.py`, lines 71–104) on the two
extracted raw contents: the verdict (`True` exactly when the normalised
contents are equal) together with the positional diagnostic it prints on
mismatch — the first differing index and the two context windows
`normalized[max(0, i-50) : min(len(normalized_standalone), i+50)]` (the
window end is taken from the standalone side for both strings, as in the
source).  `none` in the second component models "no positional diagnostic
printed" (the lengths are always reported on mismatch). -/
def compare_html (standaloneHtml inoHtml : List Char) :
    Bool × Option (Nat × List Char × List Char) :=
  let na := normalize_html standaloneHtml
  let ni := normalize_html inoHtml
  if na = ni then (true, none)
  else
    (false,
      match firstDiffAux na ni 0 with
      | some i =>
          some (i, sliceList na (i - 50) (min na.length (i + 50)),
                   sliceList ni (i - 50) (min na.length (i + 50)))
      | none => none)

/-! Basic theory of `listAt` and the first-occurrence searches. -/

theorem listAt_zero {pat s : List Char} : listAt pat s 0 ↔ s.take pat.length = pat := by
  simp [listAt]

theorem listAt_cons_succ {pat : List Char} {c : Char} {cs : List Char} {i : Nat} :
    listAt pat (c :: cs) (i + 1) ↔ listAt pat cs i := by
  simp [listAt, List.drop_succ_cons]

theorem listAt_length_le {pat s : List Char} {i : Nat}
    (h : listAt pat s i) (hp : 0 < pat.length) : i + pat.length ≤ s.length := by
  have := congrArg List.length h
  simp [List.length_take, List.length_drop] at this
  omega

theorem listAt_getElem {pat s : List Char} {i k : Nat}
    (h : listAt pat s i) (hk : k < pat.length) : s[i + k]? = pat[k]? := by
  unfold listAt at h
  rw [← h, List.getElem?_take_of_lt hk, List.getElem?_drop]

theorem listAt_boundary {pat s : List Char} {i b : Nat}
    (h : listAt pat s i) (h1 : i ≤ b) (h2 : b < i + pat.length) : s[b]? = pat[b - i]? := by
  have := listAt_getElem h (k := b - i) (by omega)
  rwa [show i + (b - i) = b by omega] at this

theorem listAt_drop_shift {pat s : List Char} {k m : Nat} :
    listAt pat (s.drop k) m ↔ listAt pat s (k + m) := by
  unfold listAt
  rw [List.drop_drop]

theorem listAt_append_left {pat u v : List Char} {i : Nat}
    (h : i + pat.length ≤ u.length) : listAt pat (u ++ v) i ↔ listAt pat u i := by
  unfold listAt
  rw [List.drop_append_of_le_length (by omega),
    List.take_append_of_le_length (by simp [List.length_drop]; omega)]

theorem listAt_append_right {pat u v : List Char} {i : Nat}
    (h : u.length ≤ i) : listAt pat (u ++ v) i ↔ listAt pat v (i - u.length) := by
  unfold listAt
  rw [show i = u.length + (i - u.length) by omega, List.drop_append]
  simp

theorem findSubAux_offset (pat : List Char) :
    ∀ (s : List Char) (i0 : Nat), findSubAux pat s i0 = (findSubAux pat s 0).map (· + i0) := by
  intro s
  induction s with
  | nil =>
      intro i0
      by_cases h : ([] : List Char).take pat.length = pat
      all_goals simp [findSubAux, h]
  | cons c cs ih =>
      intro i0
      by_cases h : (c :: cs).take pat.length = pat
      · simp [findSubAux, h]
      · simp only [findSubAux, if_neg h]
        rw [ih (i0 + 1), ih 1]
        cases findSubAux pat cs 0 <;> simp <;> omega

theorem findSub_cons_of_ne {pat : List Char} {c : Char} {cs : List Char}
    (h : ¬ (c :: cs).take pat.length = pat) :
    findSub pat (c :: cs) = (findSub pat cs).map (· + 1) := by
  simp only [findSub, findSubAux, if_neg h]
  exact findSubAux_offset pat cs 1

theorem findSub_eq_some {pat s : List Char} {n : Nat} :
    findSub pat s = some n ↔ listAt pat s n ∧ ∀ m < n, ¬ listAt pat s m := by
  induction s generalizing n with
  | nil =>
      constructor
      · intro hs
        unfold findSub findSubAux at hs
        split at hs
        case isTrue hh =>
          cases hs
          exact ⟨by simpa [listAt] using hh, by omega⟩
        case isFalse hh => cases hs
      · rintro ⟨h1, h2⟩
        have hh : ([] : List Char).take pat.length = pat := by simpa [listAt] using h1
        have hn : n = 0 := by
          by_contra hne
          exact h2 0 (by omega) (by simpa [listAt] using hh)
        subst hn
        simp [findSub, findSubAux, hh]
  | cons c cs ih =>
      by_cases h : (c :: cs).take pat.length = pat
      · constructor
        · intro hs
          simp [findSub, findSubAux, h] at hs
          subst hs
          exact ⟨by simpa [listAt] using h, by omega⟩
        · rintro ⟨h1, h2⟩
          have hn : n = 0 := by
            by_contra hne
            exact h2 0 (by omega) (by simpa [listAt] using h)
          subst hn
          simp [findSub, findSubAux, h]
      · rw [findSub_cons_of_ne h]
        constructor
        · intro hs
          rcases Option.map_eq_some'.mp hs with ⟨m, hm, hmn⟩
          subst hmn
          rcases ih.mp hm with ⟨h1, h2⟩
          refine ⟨listAt_cons_succ.mpr h1, ?_⟩
          intro k hk
          match k with
          | 0 => simpa [listAt_zero] using h
          | k + 1 =>
              intro hat
              exact h2 k (by omega) (listAt_cons_succ.mp hat)
        · rintro ⟨h1, h2⟩
          match n with
          | 0 => exact absurd (by simpa [listAt_zero] using h1) h
          | n + 1 =>
              have : findSub pat cs = some n := by
                refine ih.mpr ⟨listAt_cons_succ.mp h1, ?_⟩
                intro m hm hat
                exact h2 (m + 1) (by omega) (listAt_cons_succ.mpr hat)
              simp [this]

theorem listAt_findSub_isSome {pat s : List Char} {m : Nat} (h : listAt pat s m) :
    (findSub pat s).isSome := by
  induction s generalizing m with
  | nil =>
      have hh : ([] : List Char).take pat.length = pat := by simpa [listAt] using h
      simp [findSub, findSubAux, hh]
  | cons c cs ih =>
      by_cases hh : (c :: cs).take pat.length = pat
      · simp [findSub, findSubAux, hh]
      · rw [findSub_cons_of_ne hh]
        match m with
        | 0 => exact absurd (by simpa [listAt_zero] using h) hh
        | m + 1 =>
            have := ih (listAt_cons_succ.mp h)
            cases hc : findSub pat cs
            · rw [hc] at this; cases this
            · simp [hc]

theorem findSub_eq_none {pat s : List Char} :
    findSub pat s = none ↔ ∀ m, ¬ listAt pat s m := by
  constructor
  · intro h m hat
    have := listAt_findSub_isSome hat
    rw [h] at this
    cases this
  · intro h
    cases hn : findSub pat s with
    | none => rfl
    | some n => exact absurd (findSub_eq_some.mp hn).1 (h n)

theorem findSub_le_of_listAt {pat s : List Char} {m : Nat} (h : listAt pat s m) :
    ∃ n, n ≤ m ∧ findSub pat s = some n := by
  cases hn : findSub pat s with
  | none => exact absurd h (findSub_eq_none.mp hn m)
  | some n =>
      rcases findSub_eq_some.mp hn with ⟨-, hmin⟩
      refine ⟨n, ?_, rfl⟩
      by_contra hlt
      exact hmin m (by omega) h

theorem findSubFrom_eq_some {pat s : List Char} {k n : Nat} :
    findSubFrom pat s k = some n ↔
      k ≤ n ∧ listAt pat s n ∧ ∀ m, k ≤ m → m < n → ¬ listAt pat s m := by
  unfold findSubFrom
  constructor
  · intro h
    rcases Option.map_eq_some'.mp h with ⟨m, hm, hmn⟩
    rcases findSub_eq_some.mp hm with ⟨h1, h2⟩
    subst hmn
    rw [listAt_drop_shift, Nat.add_comm k m] at h1
    refine ⟨by omega, h1, ?_⟩
    intro t ht1 ht2 hat
    exact h2 (t - k) (by omega) (listAt_drop_shift.mpr (by rwa [show k + (t - k) = t by omega]))
  · rintro ⟨h0, h1, h2⟩
    have hfs : findSub pat (s.drop k) = some (n - k) := by
      refine findSub_eq_some.mpr ⟨?_, ?_⟩
      · rw [listAt_drop_shift, show k + (n - k) = n by omega]; exact h1
      · intro m hm hat
        exact h2 (k + m) (by omega) (by omega) (listAt_drop_shift.mp hat)
    simp [hfs]
    omega

theorem findSubFrom_eq_none {pat s : List Char} {k : Nat} :
    findSubFrom pat s k = none ↔ ∀ m, k ≤ m → ¬ listAt pat s m := by
  unfold findSubFrom
  constructor
  · intro h m hm hat
    have : findSub pat (s.drop k) = none := by
      cases hc : findSub pat (s.drop k)
      · rfl
      · simp [hc] at h
    exact findSub_eq_none.mp this (m - k)
      (listAt_drop_shift.mpr (by rwa [show k + (m - k) = m by omega]))
  · intro h
    have : findSub pat (s.drop k) = none := by
      rw [findSub_eq_none]
      intro m hat
      exact h (k + m) (by omega) (listAt_drop_shift.mp hat)
    simp [this]

theorem containsSub_iff {pat s : List Char} :
    containsSub pat s = true ↔ ∃ m, listAt pat s m := by
  unfold containsSub
  constructor
  · intro h
    rcases Option.isSome_iff_exists.mp h with ⟨n, hn⟩
    exact ⟨n, (findSub_eq_some.mp hn).1⟩
  · rintro ⟨m, hm⟩
    rcases findSub_le_of_listAt hm with ⟨n, -, hn⟩
    simp [hn]

theorem containsSub_false_iff {pat s : List Char} :
    containsSub pat s = false ↔ ∀ m, ¬ listAt pat s m := by
  rw [← Bool.not_eq_true, containsSub_iff]
  push_neg
  rfl

/-! Fuel adequacy for the two fuelled scanners, and the resulting unfolding
equations for `removeComments` and `collapseTagWs`. -/

/-- The branch condition of the comment-removal scanner at the current
position: a comment opens here and no `SYNC MARKER` text occurs in the rest
of the input (the compiled negative lookahead). -/
def rcCond (s : List Char) : Prop :=
  s.take 4 = commentOpen ∧ containsSub syncMarkerTok (s.drop 4) = false

instance (s : List Char) : Decidable (rcCond s) := by
  unfold rcCond; infer_instance

theorem rcFuel_congr :
    ∀ (f : Nat) (s : List Char), s.length ≤ f → rcFuel f s = rcFuel s.length s := by
  intro f
  induction f using Nat.strong_induction_on with
  | _ f ih =>
    intro s hs
    match f, s with
    | 0, s =>
        have : s.length = 0 := by omega
        rw [this]
    | f + 1, [] => rfl
    | f + 1, c :: cs =>
        have hcs : cs.length ≤ f := by
          simp only [List.length_cons] at hs
          omega
        show rcFuel (f + 1) (c :: cs) = rcFuel (cs.length + 1) (c :: cs)
        by_cases hcond : rcCond (c :: cs)
        · rcases hcond with ⟨h1, h2⟩
          cases hk : findSub commentClose ((c :: cs).drop 4) with
          | some k =>
              simp only [rcFuel, if_pos (And.intro h1 h2), hk]
              have hlen : ((c :: cs).drop (4 + k + 3)).length ≤ cs.length := by
                simp only [List.length_drop, List.length_cons]
                omega
              rw [ih f (by omega) _ (by omega),
                ih cs.length (by omega) _ hlen]
          | none =>
              simp only [rcFuel, if_pos (And.intro h1 h2), hk]
              rw [ih f (by omega) cs hcs]
        · have hcond2 : ¬ ((c :: cs).take 4 = commentOpen ∧
              containsSub syncMarkerTok ((c :: cs).drop 4) = false) := hcond
          simp only [rcFuel, if_neg hcond2]
          rw [ih f (by omega) cs hcs]

theorem removeComments_nil : removeComments [] = [] := rfl

theorem removeComments_cons_match {c : Char} {cs : List Char} {k : Nat}
    (hcond : rcCond (c :: cs))
    (hk : findSub commentClose ((c :: cs).drop 4) = some k) :
    removeComments (c :: cs) = removeComments ((c :: cs).drop (4 + k + 3)) := by
  rcases hcond with ⟨h1, h2⟩
  unfold removeComments
  simp only [List.length_cons, rcFuel, if_pos (And.intro h1 h2), hk]
  exact rcFuel_congr cs.length _ (by simp only [List.length_drop, List.length_cons]; omega)

theorem removeComments_cons_noclose {c : Char} {cs : List Char}
    (hcond : rcCond (c :: cs))
    (hk : findSub commentClose ((c :: cs).drop 4) = none) :
    removeComments (c :: cs) = c :: removeComments cs := by
  rcases hcond with ⟨h1, h2⟩
  unfold removeComments
  simp only [List.length_cons, rcFuel, if_pos (And.intro h1 h2), hk]

theorem removeComments_cons_else {c : Char} {cs : List Char}
    (hcond : ¬ rcCond (c :: cs)) :
    removeComments (c :: cs) = c :: removeComments cs := by
  have hcond2 : ¬ ((c :: cs).take 4 = commentOpen ∧
      containsSub syncMarkerTok ((c :: cs).drop 4) = false) := hcond
  unfold removeComments
  simp only [List.length_cons, rcFuel, if_neg hcond2]

theorem wsThenLt_length {cs r : List Char} (h : wsThenLt cs = some r) :
    r.length + 2 ≤ cs.length := by
  induction cs generalizing r with
  | nil => cases h
  | cons c cs2 ih =>
      cases cs2 with
      | nil => cases h
      | cons d r2 =>
          unfold wsThenLt at h
          split at h
          · split at h
            · cases h
              simp
            · have := ih h
              simp only [List.length_cons] at this ⊢
              omega
          · cases h

theorem ctwFuel_congr :
    ∀ (f : Nat) (s : List Char), s.length ≤ f → ctwFuel f s = ctwFuel s.length s := by
  intro f
  induction f using Nat.strong_induction_on with
  | _ f ih =>
    intro s hs
    match f, s with
    | 0, s =>
        have : s.length = 0 := by omega
        rw [this]
    | f + 1, [] => rfl
    | f + 1, c :: cs =>
        have hcs : cs.length ≤ f := by
          simp only [List.length_cons] at hs
          omega
        show ctwFuel (f + 1) (c :: cs) = ctwFuel (cs.length + 1) (c :: cs)
        by_cases hgt : c = '>'
        · cases hr : wsThenLt cs with
          | some r =>
              simp only [ctwFuel, if_pos hgt, hr]
              have hlen := wsThenLt_length hr
              rw [ih f (by omega) r (by omega), ih cs.length (by omega) r (by omega)]
          | none =>
              simp only [ctwFuel, if_pos hgt, hr]
              rw [ih f (by omega) cs hcs]
        · simp only [ctwFuel, if_neg hgt]
          rw [ih f (by omega) cs hcs]

theorem collapseTagWs_nil : collapseTagWs [] = [] := rfl

theorem collapseTagWs_cons_match {cs r : List Char}
    (hr : wsThenLt cs = some r) :
    collapseTagWs ('>' :: cs) = '>' :: '<' :: collapseTagWs r := by
  unfold collapseTagWs
  simp only [List.length_cons, ctwFuel, if_pos rfl, hr]
  have hlen := wsThenLt_length hr
  exact congrArg _ (congrArg _ (ctwFuel_congr cs.length r (by omega)))

theorem collapseTagWs_cons_gt_none {cs : List Char}
    (hr : wsThenLt cs = none) :
    collapseTagWs ('>' :: cs) = '>' :: collapseTagWs cs := by
  unfold collapseTagWs
  simp [ctwFuel, hr]

theorem collapseTagWs_cons_ne {c : Char} {cs : List Char}
    (hc : ¬ c = '>') :
    collapseTagWs (c :: cs) = c :: collapseTagWs cs := by
  unfold collapseTagWs
  simp only [List.length_cons, ctwFuel, if_neg hc]

/-! Concrete documents used as counterexamples and witnesses. -/

/-- A firmware document whose literal body holds only the end marker; the
closing `)";` is followed by a newline, so the splicer accepts it. -/
def inoMin : List Char :=
  "String html = R\"(\n<!-- ========== SYNC MARKER: END ESP32 HTML ========== -->\n)\";\n".toList

/-- Like `inoMin` but with no newline after the closing `)";` (the token sits
at the end of the file). -/
def inoNoNl : List Char :=
  "String html = R\"(\n<!-- ========== SYNC MARKER: END ESP32 HTML ========== -->\n)\";".toList

/-- A firmware document that also contains the `handleRoot` routine around
the literal, as in the real `swim_pacer.ino`. -/
def inoHandler : List Char :=
  "void handleRoot() \x7b\n  String html = R\"(\n<!-- ========== SYNC MARKER: END ESP32 HTML ========== -->\n)\";\n\x7d\n".toList

/-- A standalone document with both sentinels around a body line. -/
def standaloneDoc : List Char :=
  "A\n<!-- ========== SYNC MARKER: START ESP32 HTML ========== -->\n  body  \n<!-- ========== SYNC MARKER: END ESP32 HTML ========== -->\n".toList

/-- C10. The splicer's search for the literal-closing token
(`ino_content.find(')";\\n', end_marker_in_ino)`) only matches the closing
token when it is immediately followed by a newline: whenever the firmware
document has the literal-opening token, the end marker after it and even a
plain `)";` at or after the marker, but no occurrence of `)";` followed by a
newline there, the splicer fails (raises `ValueError`, modelled as `none`)
and the document content on disk stays unchanged. -/
theorem C10_close_token_needs_newline (ino html : List Char) (s e q : Nat)
    (hopen : findSub assignTok ino = some s)
    (hmark : findSubFrom endMarker ino (s + assignTok.length) = some e)
    (hq : findSubFrom closeTok ino e = some q)
    (hnone : findSubFrom closeNlTok ino e = none) :
    update_esp32_html ino html = none ∧ runUpdate ino html = ino := by
  have hu : update_esp32_html ino html = none := by
    simp only [update_esp32_html, hopen, hmark, hnone]
  refine ⟨hu, ?_⟩
  unfold runUpdate
  rw [hu]
  rfl

/-- Witness for C10 at the concrete document `inoNoNl`, whose `)";` ends the
file: the update fails and leaves the content unchanged. -/
theorem C10_witness :
    update_esp32_html inoNoNl "x".toList = none ∧
      runUpdate inoNoNl "x".toList = inoNoNl :=
  C10_close_token_needs_newline inoNoNl "x".toList 0 18 77
    (by decide) (by decide) (by decide) (by decide)

/-- C6 counterexample. The firmware document `inoNoNl` has the
literal-opening token (at 0), the sync end-marker after it (at 18) and a
literal-closing token `)";` after the marker (at 77), so by the claim the
splicer must not fail; yet it fails, because the token is not followed by a
newline. -/
theorem C6_counterexample :
    findSub assignTok inoNoNl = some 0 ∧
    findSubFrom endMarker inoNoNl (0 + assignTok.length) = some 18 ∧
    findSubFrom closeTok inoNoNl 18 = some 77 ∧
    update_esp32_html inoNoNl "x".toList = none := by
  decide

/-- C6 (amended). The splicer fails exactly when the firmware document lacks
the literal-opening token, or lacks the sync end-marker at or after the
literal-opening token's end, or lacks an occurrence of the literal-closing
token immediately followed by a newline at or after the end-marker's
position; on every failure the document content is left unmodified (no write
happens before the error). -/
theorem C6_update_failure_characterisation (ino html : List Char) :
    (update_esp32_html ino html = none ↔
      findSub assignTok ino = none ∨
      ∃ s, findSub assignTok ino = some s ∧
        (findSubFrom endMarker ino (s + assignTok.length) = none ∨
         ∃ e, findSubFrom endMarker ino (s + assignTok.length) = some e ∧
           findSubFrom closeNlTok ino e = none)) ∧
    (update_esp32_html ino html = none → runUpdate ino html = ino) := by
  constructor
  · cases h1 : findSub assignTok ino with
    | none =>
        constructor
        · intro _
          exact Or.inl rfl
        · intro _
          simp only [update_esp32_html, h1]
    | some s =>
        cases h2 : findSubFrom endMarker ino (s + assignTok.length) with
        | none =>
            constructor
            · intro _
              exact Or.inr ⟨s, rfl, Or.inl h2⟩
            · intro _
              simp only [update_esp32_html, h1, h2]
        | some e =>
            cases h3 : findSubFrom closeNlTok ino e with
            | none =>
                constructor
                · intro _
                  exact Or.inr ⟨s, rfl, Or.inr ⟨e, h2, h3⟩⟩
                · intro _
                  simp only [update_esp32_html, h1, h2, h3]
            | some c =>
                have hsome : update_esp32_html ino html =
                    some (ino.take (s + assignTok.length) ++
                      '\n' :: (html ++ '\n' :: ino.drop c)) := by
                  simp only [update_esp32_html, h1, h2, h3]
                constructor
                · intro hupd
                  rw [hsome] at hupd
                  cases hupd
                · rintro (h | ⟨s2, hs2, h⟩)
                  · cases h
                  · injection hs2 with hss
                    subst hss
                    rcases h with h | ⟨e2, he2, h⟩
                    · rw [h2] at h
                      cases h
                    · rw [h2] at he2
                      injection he2 with hee
                      subst hee
                      rw [h3] at h
                      cases h
  · intro h
    unfold runUpdate
    rw [h]
    rfl

/-- Witness for C6 at the concrete document `inoNoNl`: the characterisation
applies and yields the failure and the unchanged content. -/
theorem C6_witness :
    update_esp32_html inoNoNl "y".toList = none ∧
      runUpdate inoNoNl "y".toList = inoNoNl := by
  have h := C6_update_failure_characterisation inoNoNl "y".toList
  have hn : update_esp32_html inoNoNl "y".toList = none :=
    h.1.mpr (Or.inr ⟨0, by decide, Or.inr ⟨18, by decide, by decide⟩⟩)
  exact ⟨hn, h.2 hn⟩

/-- C4 counterexample. Running the full update pipeline (which reads the
standalone file through `extract_html_content`) with the standalone content
`" x "` splices the stripped text `"x"` into the literal, not the
standalone document's content taken verbatim: the claim's formula (prefix,
newline, verbatim content, newline, suffix) does not match the output. -/
theorem C4_counterexample :
    run_update_pipeline inoMin " x ".toList =
      some ("String html = R\"(\nx\n)\";\n".toList) ∧
    run_update_pipeline inoMin " x ".toList ≠
      some (inoMin.take (0 + assignTok.length) ++
        '\n' :: (" x ".toList ++ '\n' :: inoMin.drop 77)) := by
  decide

/-- C4 (amended). When the splicer succeeds, the rewritten firmware document
equals the original document's prefix up to the end of the (first)
literal-opening token, then a single newline, then the standalone document's
entire content trimmed of leading and trailing whitespace (the whole file,
including sentinel lines, not the marker-delimited region), then a single
newline, then the original document's suffix starting at the (first)
literal-closing-token-plus-newline occurrence at or after the end marker;
nothing else changes. -/
theorem C4_splice_shape (ino standalone out : List Char)
    (h : run_update_pipeline ino standalone = some out) :
    ∃ s e c,
      findSub assignTok ino = some s ∧
      findSubFrom endMarker ino (s + assignTok.length) = some e ∧
      findSubFrom closeNlTok ino e = some c ∧
      out = ino.take (s + assignTok.length) ++
        '\n' :: (stripList standalone ++ '\n' :: ino.drop c) := by
  cases h1 : findSub assignTok ino with
  | none =>
      simp only [run_update_pipeline, update_esp32_html, extract_html_content, h1] at h
      cases h
  | some s =>
      cases h2 : findSubFrom endMarker ino (s + assignTok.length) with
      | none =>
          simp only [run_update_pipeline, update_esp32_html, extract_html_content, h1, h2] at h
          cases h
      | some e =>
          cases h3 : findSubFrom closeNlTok ino e with
          | none =>
              simp only [run_update_pipeline, update_esp32_html, extract_html_content,
                h1, h2, h3] at h
              cases h
          | some c =>
              simp only [run_update_pipeline, update_esp32_html, extract_html_content,
                h1, h2, h3, Option.some.injEq] at h
              exact ⟨s, e, c, rfl, h2, h3, h.symm⟩

/-- Witness for C4 at the concrete documents `inoMin` and `" x "`. -/
theorem C4_witness :
    ∃ s e c,
      findSub assignTok inoMin = some s ∧
      findSubFrom endMarker inoMin (s + assignTok.length) = some e ∧
      findSubFrom closeNlTok inoMin e = some c ∧
      ("String html = R\"(\nx\n)\";\n".toList : List Char) =
        inoMin.take (s + assignTok.length) ++
          '\n' :: (stripList " x ".toList ++ '\n' :: inoMin.drop c) :=
  C4_splice_shape inoMin " x ".toList _ (by decide)

/-- C7. The standalone extractor: when both sentinel markers are present
(with the start sentinel first) and a newline follows the start sentinel's
first occurrence, the extractor succeeds and returns the slice from just
after that newline (which lies past the whole start-sentinel token, since
the token contains no newline) up to the end sentinel's start offset,
stripped; and whenever either sentinel is absent it fails (returns `None`
after printing the marker diagnostic) instead of returning text. -/
theorem C7_standalone_extractor (content : List Char) (s e n : Nat)
    (hs : findSub startMarker content = some s)
    (he : findSub endMarker content = some e)
    (hlt : s < e)
    (hn : findSubFrom ['\n'] content s = some n) :
    s + startMarker.length ≤ n ∧
    extract_html_from_standalone content = some (stripList (sliceList content (n + 1) e)) ∧
    (∀ c2 : List Char, (findSub startMarker c2 = none ∨ findSub endMarker c2 = none) →
      extract_html_from_standalone c2 = none) := by
  obtain ⟨hsn, hatn, -⟩ := findSubFrom_eq_some.mp hn
  have hats : listAt startMarker content s := (findSub_eq_some.mp hs).1
  have hnl : content[n]? = some '\n' := by
    have := listAt_getElem hatn (k := 0) (by simp)
    simpa using this
  refine ⟨?_, ?_, ?_⟩
  · by_contra hcon
    have hb : content[n]? = startMarker[n - s]? :=
      listAt_boundary hats hsn (by omega)
    have hno : ∀ t, t < startMarker.length → ¬ startMarker[t]? = some '\n' := by decide
    exact hno (n - s) (by omega) (hb ▸ hnl)
  · simp only [extract_html_from_standalone, hs, he, hn]
  · intro c2 h
    rcases h with h | h
    · simp only [extract_html_from_standalone, h]
    · cases h1 : findSub startMarker c2 with
      | none => simp only [extract_html_from_standalone, h1]
      | some s1 => simp only [extract_html_from_standalone, h1, h]

/-- Witness for C7 at the concrete standalone document `standaloneDoc`:
markers at 2 and 72, newline after the start marker at 62, extracted text
`body`. -/
theorem C7_witness :
    extract_html_from_standalone standaloneDoc = some ("body".toList) ∧
      2 + startMarker.length ≤ 62 := by
  have h := C7_standalone_extractor standaloneDoc 2 72 62
    (by decide) (by decide) (by decide) (by decide)
  refine ⟨?_, h.1⟩
  rw [h.2.1]
  decide

/-- Characterisation of the comparator's first-difference scan: it returns
`some n` exactly when `n` (counted from the starting index `i0`) is the least
index below both lengths at which the two lists hold different characters. -/
theorem firstDiffAux_eq_some {xs ys : List Char} {i0 n : Nat} :
    firstDiffAux xs ys i0 = some n ↔
      ∃ d, n = i0 + d ∧ d < min xs.length ys.length ∧ ¬ xs[d]? = ys[d]? ∧
        ∀ m < d, xs[m]? = ys[m]? := by
  induction xs generalizing ys i0 n with
  | nil =>
      constructor
      · intro h
        simp [firstDiffAux] at h
      · rintro ⟨d, -, hd, -⟩
        simp at hd
  | cons x xt ih =>
      cases ys with
      | nil =>
          constructor
          · intro h
            simp [firstDiffAux] at h
          · rintro ⟨d, -, hd, -⟩
            simp at hd
      | cons y yt =>
          by_cases hxy : x = y
          · subst hxy
            have step : firstDiffAux (x :: xt) (x :: yt) i0 = firstDiffAux xt yt (i0 + 1) := by
              simp [firstDiffAux]
            rw [step, ih]
            constructor
            · rintro ⟨d, hn, hlt, hne2, hbelow⟩
              refine ⟨d + 1, by omega, by simp only [List.length_cons]; omega,
                by simpa using hne2, ?_⟩
              intro m hm
              match m with
              | 0 => simp
              | m + 1 =>
                  simp only [List.getElem?_cons_succ]
                  exact hbelow m (by omega)
            · rintro ⟨d, hn, hlt, hne2, hbelow⟩
              match d with
              | 0 => simp at hne2
              | d + 1 =>
                  refine ⟨d, by omega, by simp only [List.length_cons] at hlt; omega,
                    by simpa using hne2, ?_⟩
                  intro m hm
                  have := hbelow (m + 1) (by omega)
                  simpa using this
          · have step : firstDiffAux (x :: xt) (y :: yt) i0 = some i0 := by
              simp [firstDiffAux, hxy]
            rw [step]
            constructor
            · intro h
              injection h with h
              subst h
              refine ⟨0, by omega, by simp, by simp [hxy], by omega⟩
            · rintro ⟨d, hn, -, -, hbelow⟩
              match d with
              | 0 => simp [hn]
              | d + 1 =>
                  have := hbelow 0 (by omega)
                  simp at this
                  exact absurd this hxy

/-- C9. When the two normalised contents are unequal the comparator's verdict
is failure; its scan finds exactly the smallest index below the shorter
normalised length at which the two strings' characters differ, and then the
diagnostic carries that index with the two context windows
`[max(0, i-50), min(len standalone-side, i+50))`; and when one normalised
string is a prefix of the other no such index exists, so no positional
diagnostic is produced (only the two lengths are reported) while the verdict
is still failure. -/
theorem C9_comparator (sa si : List Char)
    (hne : normalize_html sa ≠ normalize_html si) :
    (compare_html sa si).1 = false ∧
    (∀ i, firstDiffAux (normalize_html sa) (normalize_html si) 0 = some i ↔
        (i < min (normalize_html sa).length (normalize_html si).length ∧
         ¬ (normalize_html sa)[i]? = (normalize_html si)[i]? ∧
         ∀ m < i, (normalize_html sa)[m]? = (normalize_html si)[m]?)) ∧
    (∀ i, firstDiffAux (normalize_html sa) (normalize_html si) 0 = some i →
        (compare_html sa si).2 = some (i,
          sliceList (normalize_html sa) (i - 50) (min (normalize_html sa).length (i + 50)),
          sliceList (normalize_html si) (i - 50) (min (normalize_html sa).length (i + 50)))) ∧
    (((normalize_html si).take (normalize_html sa).length = normalize_html sa ∨
      (normalize_html sa).take (normalize_html si).length = normalize_html si) →
        (compare_html sa si).2 = none) := by
  refine ⟨?_, ?_, ?_, ?_⟩
  · simp only [compare_html, if_neg hne]
  · intro i
    rw [firstDiffAux_eq_some]
    constructor
    · rintro ⟨d, hd, h1, h2, h3⟩
      have : d = i := by omega
      subst this
      exact ⟨h1, h2, h3⟩
    · rintro ⟨h1, h2, h3⟩
      exact ⟨i, by omega, h1, h2, h3⟩
  · intro i hi
    simp only [compare_html, if_neg hne, hi]
  · intro hpre
    cases hfd : firstDiffAux (normalize_html sa) (normalize_html si) 0 with
    | none => simp only [compare_html, if_neg hne, hfd]
    | some i =>
        exfalso
        rcases firstDiffAux_eq_some.mp hfd with ⟨d, -, h1, h2, -⟩
        rcases hpre with hpre | hpre
        · have : (normalize_html sa)[d]? = (normalize_html si)[d]? := by
            conv_lhs => rw [← hpre]
            exact List.getElem?_take_of_lt (by omega)
          exact h2 this
        · have : (normalize_html si)[d]? = (normalize_html sa)[d]? := by
            conv_lhs => rw [← hpre]
            exact List.getElem?_take_of_lt (by omega)
          exact h2 this.symm

/-- Witness for C9 at two concrete single-difference documents. -/
theorem C9_witness :
    (compare_html "<div>a</div>".toList "<div>b</div>".toList).1 = false ∧
    (compare_html "<div>a</div>".toList "<div>b</div>".toList).2 =
      some (5, "<div>a</div>".toList, "<div>b</div>".toList) := by
  have h := C9_comparator "<div>a</div>".toList "<div>b</div>".toList (by decide)
  refine ⟨h.1, ?_⟩
  have h5 : firstDiffAux (normalize_html "<div>a</div>".toList)
      (normalize_html "<div>b</div>".toList) 0 = some 5 := by decide
  rw [h.2.2.1 5 h5]
  decide

/-- The comment opening delimiter, as an explicit character list. -/
theorem commentOpen_eq : commentOpen = ['<', '!', '-', '-'] := by decide

/-- The comment closing delimiter, as an explicit character list. -/
theorem commentClose_eq : commentClose = ['-', '-', '>'] := by decide

/-- When no position inside `u` satisfies the comment-removal match
condition, the scanner copies `u` through unchanged and continues in `v`. -/
theorem removeComments_passthrough :
    ∀ (u v : List Char), (∀ m, m < u.length → ¬ rcCond ((u ++ v).drop m)) →
      removeComments (u ++ v) = u ++ removeComments v := by
  intro u
  induction u with
  | nil =>
      intro v _
      simp
  | cons c cu ih =>
      intro v h
      have h0 : ¬ rcCond (c :: (cu ++ v)) := by
        have := h 0 (by simp)
        simpa using this
      have hshift : ∀ m, m < cu.length → ¬ rcCond ((cu ++ v).drop m) := by
        intro m hm
        have := h (m + 1) (by simp only [List.length_cons]; omega)
        simpa [List.drop_succ_cons] using this
      rw [List.cons_append, removeComments_cons_else h0, ih v hshift]
      rfl

/-- C1 counterexample. The input `<!-- note --><!-- SYNC MARKER -->` contains
the comment `<!-- note -->`, whose own content has no `SYNC MARKER`; the
claim demands that normalization remove that comment, but the normalizer
returns the input unchanged (the lookahead sees the `SYNC MARKER` text that
occurs later in the string, outside this comment's content). -/
theorem C1_counterexample :
    containsSub "<!-- note -->".toList
        (normalize_html "<!-- note --><!-- SYNC MARKER -->".toList) = true ∧
    normalize_html "<!-- note --><!-- SYNC MARKER -->".toList =
      "<!-- note --><!-- SYNC MARKER -->".toList := by
  decide

/-- C1 (amended). The normalizer's comment-removal pass deletes a
comment-delimited region (shortest match, across line breaks) exactly when
the literal text `SYNC MARKER` does not occur anywhere in the remainder of
the input after the comment's opening delimiter — the compiled lookahead
scans to the end of the input, not just the comment's own content.  Stated
for a comment `<!--body-->` at the head of the scan whose body contains no
closing delimiter (so the shortest match is the comment itself) and no
comment opening even overlapping the closer: when `SYNC MARKER` occurs at or
after the body the whole comment is kept and scanning continues after it;
when it does not, the comment is deleted.  In particular a comment such as
`<!-- note -->` is removed exactly when no `SYNC MARKER` text follows its
opening. -/
theorem C1_comment_removal (body rest : List Char)
    (h1 : containsSub commentClose body = false)
    (h2 : containsSub commentOpen (body ++ commentClose) = false) :
    (containsSub syncMarkerTok (body ++ commentClose ++ rest) = true →
      removeComments (commentOpen ++ body ++ commentClose ++ rest) =
        commentOpen ++ body ++ commentClose ++ removeComments rest) ∧
    (containsSub syncMarkerTok (body ++ commentClose ++ rest) = false →
      removeComments (commentOpen ++ body ++ commentClose ++ rest) = removeComments rest) := by
  have hno2 : ∀ m, ¬ listAt commentOpen (body ++ commentClose) m :=
    containsSub_false_iff.mp h2
  have hnoBody : ∀ m, ¬ listAt commentClose body m :=
    containsSub_false_iff.mp h1
  set X : List Char := body ++ (commentClose ++ rest) with hXdef
  have hs0 : commentOpen ++ body ++ commentClose ++ rest =
      '<' :: '!' :: '-' :: '-' :: X := by
    rw [hXdef, commentOpen_eq]
    simp
  have hXassoc : body ++ commentClose ++ rest = X := by
    rw [hXdef, List.append_assoc]
  have hOpenGtChars : ∀ t, t < commentOpen.length → ¬ commentOpen[t]? = some '>' := by
    decide
  -- no comment opening starts strictly inside the span `<!--body-->`
  have hinner : ∀ m, 0 < m → m < 4 + body.length + 3 →
      ¬ listAt commentOpen ('<' :: '!' :: '-' :: '-' :: X) m := by
    intro m hm0 hmlt hat
    by_cases hm4 : m < 4
    · have hat0 : (('<' : Char) :: '!' :: '-' :: '-' :: X)[m]? = some '<' := by
        have := listAt_getElem hat (k := 0) (by decide)
        simpa using this
      interval_cases m
      · simp only [List.getElem?_cons_succ, List.getElem?_cons_zero] at hat0
        exact absurd hat0 (by decide)
      · simp only [List.getElem?_cons_succ, List.getElem?_cons_zero] at hat0
        exact absurd hat0 (by decide)
      · simp only [List.getElem?_cons_succ, List.getElem?_cons_zero] at hat0
        exact absurd hat0 (by decide)
    · have hm4' : 4 ≤ m := by omega
      have hat2 : listAt commentOpen X (m - 4) := by
        have hsplit : ('<' : Char) :: '!' :: '-' :: '-' :: X = commentOpen ++ X := by
          rw [commentOpen_eq]
          rfl
        rw [hsplit] at hat
        have h4 : commentOpen.length ≤ m := by
          rw [commentOpen_eq]
          simp
          omega
        have := (listAt_append_right h4).mp hat
        rwa [show m - commentOpen.length = m - 4 by rw [commentOpen_eq]; rfl] at this
      by_cases hfit : (m - 4) + 4 ≤ body.length + 3
      · -- the occurrence sits wholly inside `body ++ commentClose`
        have hre : X = (body ++ commentClose) ++ rest := by
          rw [hXdef, List.append_assoc]
        rw [hre] at hat2
        have hin : listAt commentOpen (body ++ commentClose) (m - 4) :=
          (listAt_append_left (by
            simp only [List.length_append, commentOpen_eq, commentClose_eq]
            simp
            omega)).mp hat2
        exact hno2 (m - 4) hin
      · -- the occurrence would cover the `>` of the closer with a `<!--` character
        have hbd : X[body.length + 2]? = some '>' := by
          rw [hXdef, List.getElem?_append_right (by omega)]
          have h22 : body.length + 2 - body.length = 2 := by omega
          rw [h22, commentClose_eq]
          simp
        have hcov1 : m - 4 ≤ body.length + 2 := by omega
        have hcov2 : body.length + 2 < (m - 4) + commentOpen.length := by
          rw [commentOpen_eq]
          simp
          omega
        have hb := listAt_boundary hat2 hcov1 hcov2
        rw [hbd] at hb
        exact hOpenGtChars (body.length + 2 - (m - 4))
          (by rw [commentOpen_eq]; simp; omega) hb.symm
  constructor
  · -- `SYNC MARKER` occurs after the opening: the comment is kept
    intro hSM
    have hpass : ∀ m, m < (commentOpen ++ body ++ commentClose).length →
        ¬ rcCond (((commentOpen ++ body ++ commentClose) ++ rest).drop m) := by
      intro m hm hcond
      have hmlen : m < 4 + body.length + 3 := by
        simp only [List.length_append, commentOpen_eq, commentClose_eq] at hm
        simp at hm
        omega
      have hform : (commentOpen ++ body ++ commentClose) ++ rest =
          '<' :: '!' :: '-' :: '-' :: X := hs0
      rcases hcond with ⟨htake, hsm⟩
      rcases Nat.eq_zero_or_pos m with hm0 | hm0
      · subst hm0
        rw [hform] at hsm
        simp only [List.drop_zero] at hsm
        have : (('<' : Char) :: '!' :: '-' :: '-' :: X).drop 4 = X := rfl
        rw [this, ← hXassoc] at hsm
        rw [hsm] at hSM
        cases hSM
      · have hat : listAt commentOpen ('<' :: '!' :: '-' :: '-' :: X) m := by
          rw [hform] at htake
          exact htake
        exact hinner m hm0 hmlen hat
    exact removeComments_passthrough (commentOpen ++ body ++ commentClose) rest hpass
  · -- no `SYNC MARKER` after the opening: the comment is removed
    intro hSM
    have hfind : findSub commentClose X = some body.length := by
      rw [findSub_eq_some]
      constructor
      · rw [hXdef, listAt_append_right (by omega)]
        simp only [Nat.sub_self]
        unfold listAt
        simp [List.take_left]
      · intro m hmlt hat
        by_cases hfit : m + 3 ≤ body.length
        · have hin : listAt commentClose body m := by
            rcases hat with hat
            unfold listAt at hat ⊢
            rw [hXdef, List.drop_append_of_le_length (by omega),
              List.take_append_of_le_length (by
                simp only [List.length_drop, commentClose_eq]
                simp
                omega)] at hat
            exact hat
          exact hnoBody m hin
        · have hgot : X[m + 2]? = some '>' := by
            have := listAt_getElem hat (k := 2) (by rw [commentClose_eq]; simp)
            have h3 : commentClose[2]? = some '>' := by decide
            rw [h3] at this
            rwa [show m + 2 = m + 2 from rfl] at this
          have hval : X[m + 2]? = some '-' := by
            rw [hXdef, List.getElem?_append_right (by omega)]
            rcases (show m + 2 - body.length = 0 ∨ m + 2 - body.length = 1 by omega)
              with hh | hh
            · rw [hh, commentClose_eq]
              simp
            · rw [hh, commentClose_eq]
              simp
          rw [hgot] at hval
          exact absurd hval (by decide)
    have hcond : rcCond ('<' :: '!' :: '-' :: '-' :: X) := by
      constructor
      · rw [commentOpen_eq]
        rfl
      · have hd4 : (('<' : Char) :: '!' :: '-' :: '-' :: X).drop 4 = X := rfl
        rw [hd4, ← hXassoc]
        exact hSM
    have hk : findSub commentClose ((('<' : Char) :: '!' :: '-' :: '-' :: X).drop 4) =
        some body.length := by
      have hd4 : (('<' : Char) :: '!' :: '-' :: '-' :: X).drop 4 = X := rfl
      rw [hd4]
      exact hfind
    rw [hs0, removeComments_cons_match hcond hk]
    have hsplit : ('<' : Char) :: '!' :: '-' :: '-' :: X =
        ('<' :: '!' :: '-' :: '-' :: (body ++ commentClose)) ++ rest := by
      rw [hXdef]
      simp
    have hlen : (('<' : Char) :: '!' :: '-' :: '-' :: (body ++ commentClose)).length =
        4 + body.length + 3 := by
      simp only [List.length_cons, List.length_append, commentClose_eq]
      simp
      omega
    rw [hsplit, ← hlen, List.drop_left]

/-- Witness for C1 at the concrete comment `<!-- note -->` followed by
nothing: no `SYNC MARKER` occurs after its opening, so the comment is
removed. -/
theorem C1_witness :
    removeComments (commentOpen ++ " note ".toList ++ commentClose ++ []) = removeComments [] :=
  (C1_comment_removal " note ".toList [] (by decide) (by decide)).2 (by decide)


/-- Every position strictly inside the leading whitespace run of `s` holds a
whitespace character. -/
theorem countLeadingWs_ws :
    ∀ (s : List Char) (t : Nat), t < countLeadingWs s →
      ∃ c, s[t]? = some c ∧ pyWs c = true := by
  intro s
  induction s with
  | nil =>
      intro t ht
      simp [countLeadingWs] at ht
  | cons c cs ih =>
      intro t ht
      by_cases hw : pyWs c
      · rw [countLeadingWs, List.takeWhile_cons, if_pos hw] at ht
        match t with
        | 0 => exact ⟨c, by simp, hw⟩
        | t + 1 =>
            obtain ⟨c2, hc2, hw2⟩ := ih t (by
              rw [countLeadingWs]
              simp only [List.length_cons] at ht
              omega)
            exact ⟨c2, by simpa using hc2, hw2⟩
      · rw [countLeadingWs, List.takeWhile_cons, if_neg hw] at ht
        simp at ht

/-- A literal-closing token `)";` cannot start inside a whitespace run (its
first character is not whitespace). -/
theorem closeTok_not_in_ws {content : List Char} {j q : Nat}
    (hq : listAt closeTok content q) (h1 : j ≤ q)
    (h2 : q < j + countLeadingWs (content.drop j)) : False := by
  have hdrop : (content.drop j)[q - j]? = content[q]? := by
    rw [List.getElem?_drop]
    congr 1
    omega
  obtain ⟨c, hc, hwsc⟩ := countLeadingWs_ws (content.drop j) (q - j) (by omega)
  have hq0 : content[q]? = some ')' := by
    have := listAt_getElem hq (k := 0) (by decide)
    have h0 : closeTok[0]? = some ')' := by decide
    rw [h0] at this
    simpa using this
  rw [hdrop, hq0] at hc
  injection hc with hc
  subst hc
  exact absurd hwsc (by decide)

/-- An occurrence of the firmware extractor's full pattern: a handler-routine
opening at `i`, an assignment of the raw-string opening token at `j` somewhere
after it, and the literal-closing token `)";` at `q` somewhere after the
assignment (the intervening `\s*` and the lazily captured body can be any
text, so only the orderings matter). -/
def inoPatternAt (s : List Char) (i j q : Nat) : Prop :=
  listAt handlerTok s i ∧ i + handlerTok.length ≤ j ∧ listAt assignTok s j ∧
    j + assignTok.length ≤ q ∧ listAt closeTok s q

instance (s : List Char) (i j q : Nat) : Decidable (inoPatternAt s i j q) := by
  unfold inoPatternAt
  infer_instance

/-- C8. The firmware extractor fails exactly when no occurrence of the full
pattern (handler-routine opening, then any content, then the raw-string
assignment token, then a body, then the literal-closing token `)";`) exists
anywhere in the document; and when it returns a value, that value is the
captured body of the first textual occurrence — the first handler opening,
the first assignment token after it, and the first closing token after that
assignment — with the greedy `\s*` having consumed the leading whitespace and
the captured slice trimmed of trailing whitespace, then stripped. -/
theorem C8_firmware_extractor (content : List Char) :
    (extract_html_from_ino content = none ↔ ¬ ∃ i j q, inoPatternAt content i j q) ∧
    (∀ v, extract_html_from_ino content = some v →
      ∃ i j q, inoPatternAt content i j q ∧
        (∀ i2, listAt handlerTok content i2 → i ≤ i2) ∧
        (∀ j2, i + handlerTok.length ≤ j2 → listAt assignTok content j2 → j ≤ j2) ∧
        (∀ q2, j + assignTok.length ≤ q2 → listAt closeTok content q2 → q ≤ q2) ∧
        v = stripList (dropTrailWs (sliceList content
          (j + assignTok.length + countLeadingWs (content.drop (j + assignTok.length))) q))) := by
  have main : ∀ v, extract_html_from_ino content = some v →
      ∃ i j q, inoPatternAt content i j q ∧
        (∀ i2, listAt handlerTok content i2 → i ≤ i2) ∧
        (∀ j2, i + handlerTok.length ≤ j2 → listAt assignTok content j2 → j ≤ j2) ∧
        (∀ q2, j + assignTok.length ≤ q2 → listAt closeTok content q2 → q ≤ q2) ∧
        v = stripList (dropTrailWs (sliceList content
          (j + assignTok.length + countLeadingWs (content.drop (j + assignTok.length))) q)) := by
    intro v hv
    cases hi : findSub handlerTok content with
    | none => simp [extract_html_from_ino, hi] at hv
    | some i =>
        cases hj : findSubFrom assignTok content (i + handlerTok.length) with
        | none => simp [extract_html_from_ino, hi, hj] at hv
        | some j =>
            cases hq3 : findSubFrom closeTok content
                (j + assignTok.length + countLeadingWs (content.drop (j + assignTok.length))) with
            | none => simp [extract_html_from_ino, hi, hj, hq3] at hv
            | some q =>
                simp only [extract_html_from_ino, hi, hj, hq3, Option.some.injEq] at hv
                obtain ⟨hiat, himin⟩ := findSub_eq_some.mp hi
                obtain ⟨hjge, hjat, hjmin⟩ := findSubFrom_eq_some.mp hj
                obtain ⟨hqge, hqat, hqmin⟩ := findSubFrom_eq_some.mp hq3
                refine ⟨i, j, q, ⟨hiat, hjge, hjat, by omega, hqat⟩, ?_, ?_, ?_, hv.symm⟩
                · intro i2 hat2
                  by_contra hcon
                  exact himin i2 (by omega) hat2
                · intro j2 hge2 hat2
                  by_contra hcon
                  exact hjmin j2 hge2 (by omega) hat2
                · intro q2 hge2 hat2
                  by_cases hp : j + assignTok.length +
                      countLeadingWs (content.drop (j + assignTok.length)) ≤ q2
                  · by_contra hcon
                    exact hqmin q2 hp (by omega) hat2
                  · exact absurd (closeTok_not_in_ws hat2 hge2 (by omega)) id
  refine ⟨⟨?_, ?_⟩, main⟩
  · intro hnone
    rintro ⟨i, j, q, hiat, hij, hjat, hjq, hqat⟩
    obtain ⟨i0, hi0le, hi0⟩ := findSub_le_of_listAt hiat
    cases hj0 : findSubFrom assignTok content (i0 + handlerTok.length) with
    | none =>
        exact findSubFrom_eq_none.mp hj0 j (by omega) hjat
    | some j0 =>
        obtain ⟨hj0ge, hj0at, hj0min⟩ := findSubFrom_eq_some.mp hj0
        have hj0j : j0 ≤ j := by
          by_contra hcon
          exact hj0min j (by omega) (by omega) hjat
        cases hq0 : findSubFrom closeTok content
            (j0 + assignTok.length + countLeadingWs (content.drop (j0 + assignTok.length))) with
        | none =>
            have hqp : j0 + assignTok.length +
                countLeadingWs (content.drop (j0 + assignTok.length)) ≤ q := by
              by_contra hcon
              exact closeTok_not_in_ws (j := j0 + assignTok.length) hqat (by omega) (by omega)
            exact findSubFrom_eq_none.mp hq0 q hqp hqat
        | some q0 =>
            simp [extract_html_from_ino, hi0, hj0, hq0] at hnone
  · intro hnex
    cases hv : extract_html_from_ino content with
    | none => rfl
    | some v =>
        obtain ⟨i, j, q, hpat, -⟩ := main v hv
        exact absurd ⟨i, j, q, hpat⟩ hnex

/-- Witness for C8: the concrete firmware document `inoHandler` matches the
pattern (handler at 0, assignment at 22, closer at 99), so the extractor does
not fail on it. -/
theorem C8_witness :
    ¬ (extract_html_from_ino inoHandler = none) ∧
      ∃ i j q, inoPatternAt inoHandler i j q := by
  have h := (C8_firmware_extractor inoHandler).1
  have hex : ∃ i j q, inoPatternAt inoHandler i j q := ⟨0, 22, 99, by decide⟩
  exact ⟨fun hn => (h.mp hn) hex, hex⟩

/-! Transfer lemmas about occurrences in a spliced document
`P ++ '\n' :: (S ++ '\n' :: Q)` and a small theory of `stripList`,
used to settle the round-trip and idempotence claims about the splicer. -/

theorem listAt_take_iff {pat W : List Char} {n i : Nat}
    (hn : n ≤ W.length) (hfit : i + pat.length ≤ n) :
    listAt pat (W.take n) i ↔ listAt pat W i := by
  conv_rhs => rw [← List.take_append_drop n W]
  exact (listAt_append_left (by simp only [List.length_take]; omega)).symm

theorem findSub_take_append {pat W rest2 : List Char} {i n : Nat}
    (hfs : findSub pat W = some i) (hfit : i + pat.length ≤ n) (hn : n ≤ W.length) :
    findSub pat (W.take n ++ rest2) = some i := by
  obtain ⟨hat, hmin⟩ := findSub_eq_some.mp hfs
  have htake : (W.take n).length = n := by
    simp only [List.length_take]
    omega
  rw [findSub_eq_some]
  constructor
  · rw [listAt_append_left (by omega)]
    exact (listAt_take_iff hn hfit).mpr hat
  · intro m hm hat2
    rw [listAt_append_left (by omega)] at hat2
    exact hmin m hm ((listAt_take_iff hn (by omega)).mp hat2)

theorem listAt_mono (p1 p2 : List Char) {s : List Char} {m : Nat}
    (hpre : p2.take p1.length = p1) (h : listAt p2 s m) : listAt p1 s m := by
  have hlen : p1.length ≤ p2.length := by
    have := congrArg List.length hpre
    simp only [List.length_take] at this
    omega
  unfold listAt at h ⊢
  rw [show (s.drop m).take p1.length = ((s.drop m).take p2.length).take p1.length from by
    rw [List.take_take, Nat.min_eq_left hlen], h, hpre]

theorem close_at_spliced {P S Q : List Char} (hQ : listAt closeNlTok Q 0) :
    listAt closeNlTok (P ++ '\n' :: (S ++ '\n' :: Q)) (P.length + 1 + S.length + 1) := by
  rw [listAt_append_right (by omega)]
  have h1 : P.length + 1 + S.length + 1 - P.length = (S.length + 1) + 1 := by omega
  rw [h1, listAt_cons_succ, listAt_append_right (by omega)]
  have h2 : S.length + 1 - S.length = 0 + 1 := by omega
  rw [h2, listAt_cons_succ]
  exact hQ

theorem no_close_in_spliced {P S Q : List Char} {m : Nat}
    (hS : containsSub closeTok S = false)
    (hat : listAt closeTok (P ++ '\n' :: (S ++ '\n' :: Q)) m)
    (hge : P.length + 1 ≤ m) (hlt : m < P.length + 1 + S.length + 1) : False := by
  have hat1 : listAt closeTok ('\n' :: (S ++ '\n' :: Q)) (m - P.length) :=
    (listAt_append_right (by omega)).mp hat
  have hm1 : m - P.length = (m - P.length - 1) + 1 := by omega
  rw [hm1, listAt_cons_succ] at hat1
  set t := m - P.length - 1 with ht
  have htlt : t ≤ S.length := by omega
  by_cases hfit : t + closeTok.length ≤ S.length
  · have hin : listAt closeTok S t := (listAt_append_left hfit).mp hat1
    exact absurd (containsSub_iff.mpr ⟨t, hin⟩) (by simp [hS])
  · have hclen : closeTok.length = 3 := by decide
    have hcov1 : t ≤ S.length := htlt
    have hcov2 : S.length < t + closeTok.length := by omega
    have hnl : (S ++ '\n' :: Q)[S.length]? = some '\n' := by
      rw [List.getElem?_append_right (by omega)]
      simp
    have hb := listAt_boundary hat1 hcov1 hcov2
    rw [hnl] at hb
    have : ∀ u, u < closeTok.length → ¬ closeTok[u]? = some '\n' := by decide
    exact this (S.length - t) (by omega) hb.symm

theorem marker_first_spliced {P S Q : List Char} {m1 : Nat}
    (hm1 : findSub endMarker S = some m1) :
    findSubFrom endMarker (P ++ '\n' :: (S ++ '\n' :: Q)) P.length =
      some (P.length + 1 + m1) := by
  obtain ⟨hat, hmin⟩ := findSub_eq_some.mp hm1
  have hm1len : m1 + endMarker.length ≤ S.length := listAt_length_le hat (by decide)
  rw [findSubFrom_eq_some]
  refine ⟨by omega, ?_, ?_⟩
  · rw [listAt_append_right (by omega)]
    have h1 : P.length + 1 + m1 - P.length = m1 + 1 := by omega
    rw [h1, listAt_cons_succ]
    exact (listAt_append_left (by omega)).mpr hat
  · intro m hge hlt hat2
    have hat3 : listAt endMarker ('\n' :: (S ++ '\n' :: Q)) (m - P.length) :=
      (listAt_append_right (by omega)).mp hat2
    rcases Nat.eq_zero_or_pos (m - P.length) with h0 | h0
    · rw [h0] at hat3
      have := listAt_getElem hat3 (k := 0) (by decide)
      have hh : endMarker[0]? = some '<' := by decide
      rw [hh] at this
      simp at this
    · have hmt : m - P.length = (m - P.length - 1) + 1 := by omega
      rw [hmt, listAt_cons_succ] at hat3
      set t := m - P.length - 1 with ht
      have htm1 : t < m1 := by omega
      have hin : listAt endMarker S t := (listAt_append_left (by omega)).mp hat3
      exact hmin t htm1 hin

theorem countLeadingWs_cons_ws {c : Char} {u : List Char} (h : pyWs c = true) :
    countLeadingWs (c :: u) = 1 + countLeadingWs u := by
  unfold countLeadingWs
  rw [List.takeWhile_cons, if_pos h]
  simp [Nat.add_comm]

theorem countLeadingWs_cons_not {c : Char} {u : List Char} (h : pyWs c = false) :
    countLeadingWs (c :: u) = 0 := by
  unfold countLeadingWs
  rw [List.takeWhile_cons, if_neg (by simp [h])]
  rfl

theorem countLeadingWs_le (u : List Char) : countLeadingWs u ≤ u.length := by
  unfold countLeadingWs
  induction u with
  | nil => simp
  | cons c cs ih =>
      rw [List.takeWhile_cons]
      by_cases h : pyWs c
      · rw [if_pos h]
        simp only [List.length_cons]
        omega
      · rw [if_neg h]
        simp

theorem countLeadingWs_append_lt {a b : List Char}
    (h : countLeadingWs a < a.length) :
    countLeadingWs (a ++ b) = countLeadingWs a := by
  induction a with
  | nil => simp at h
  | cons c cs ih =>
      by_cases hw : pyWs c
      · rw [List.cons_append, countLeadingWs_cons_ws hw, countLeadingWs_cons_ws hw]
        rw [countLeadingWs_cons_ws hw, List.length_cons] at h
        rw [ih (by omega)]
      · rw [List.cons_append, countLeadingWs_cons_not (by simpa using hw),
          countLeadingWs_cons_not (by simpa using hw)]

theorem countLeadingWs_append_all {a b : List Char}
    (h : countLeadingWs a = a.length) :
    countLeadingWs (a ++ b) = a.length + countLeadingWs b := by
  induction a with
  | nil => simp
  | cons c cs ih =>
      by_cases hw : pyWs c
      · rw [List.cons_append, countLeadingWs_cons_ws hw]
        rw [countLeadingWs_cons_ws hw, List.length_cons] at h
        rw [ih (by omega), List.length_cons]
        omega
      · rw [countLeadingWs_cons_not (by simpa using hw)] at h
        simp at h

theorem countLeadingWs_eq_zero {u : List Char} {c : Char}
    (h : u[0]? = some c) (hw : pyWs c = false) : countLeadingWs u = 0 := by
  cases u with
  | nil => cases h
  | cons d ds =>
      simp at h
      subst h
      exact countLeadingWs_cons_not hw

theorem dropWhile_eq_drop (p : Char → Bool) :
    ∀ (l : List Char), l.dropWhile p = l.drop (l.takeWhile p).length := by
  intro l
  induction l with
  | nil => rfl
  | cons c cs ih =>
      rw [List.dropWhile_cons, List.takeWhile_cons]
      by_cases h : p c
      · rw [if_pos h, if_pos h]
        simpa using ih
      · rw [if_neg h, if_neg h]
        rfl

theorem dropLeadingWs_eq_drop (u : List Char) :
    dropLeadingWs u = u.drop (countLeadingWs u) := by
  unfold dropLeadingWs countLeadingWs
  exact dropWhile_eq_drop pyWs u

theorem dropLeadingWs_shape (u : List Char) :
    dropLeadingWs u = [] ∨ ∃ c t, dropLeadingWs u = c :: t ∧ pyWs c = false := by
  induction u with
  | nil => exact Or.inl rfl
  | cons c cs ih =>
      unfold dropLeadingWs at ih ⊢
      rw [List.dropWhile_cons]
      by_cases h : pyWs c
      · rw [if_pos h]
        exact ih
      · rw [if_neg h]
        exact Or.inr ⟨c, cs, rfl, by simpa using h⟩

theorem dropTrailWs_append_nl (u : List Char) :
    dropTrailWs (u ++ ['\n']) = dropTrailWs u := by
  unfold dropTrailWs
  rw [List.reverse_append]
  simp [List.dropWhile_cons, pyWs]

theorem dropTrailWs_nil : dropTrailWs [] = [] := rfl

theorem dropTrailWs_cons_shape (c : Char) (t : List Char) :
    dropTrailWs (c :: t) = [] ∨ ∃ t2, dropTrailWs (c :: t) = c :: t2 := by
  unfold dropTrailWs
  rw [List.reverse_cons, dropWhile_eq_drop]
  set j := ((t.reverse ++ [c]).takeWhile pyWs).length with hj
  have hjle : j ≤ t.length + 1 := by
    have := countLeadingWs_le (t.reverse ++ [c])
    unfold countLeadingWs at this
    simp only [List.length_append, List.length_reverse, List.length_singleton] at this
    omega
  by_cases hsmall : j ≤ t.length
  · right
    rw [List.drop_append_of_le_length (by simpa using hsmall)]
    refine ⟨(t.reverse.drop j).reverse, ?_⟩
    rw [List.reverse_append]
    rfl
  · left
    have hje : j = t.length + 1 := by omega
    rw [hje]
    rw [show t.length + 1 = (t.reverse ++ [c]).length by simp]
    simp

theorem dropWhileIdem (p : Char → Bool) (l : List Char) :
    (l.dropWhile p).dropWhile p = l.dropWhile p := by
  induction l with
  | nil => rfl
  | cons c cs ih =>
      rw [List.dropWhile_cons]
      by_cases h : p c
      · rw [if_pos h]
        exact ih
      · rw [if_neg h, List.dropWhile_cons, if_neg h]

theorem dropTrailWs_idem (l : List Char) :
    dropTrailWs (dropTrailWs l) = dropTrailWs l := by
  unfold dropTrailWs
  rw [List.reverse_reverse, dropWhileIdem]

theorem dropLeadingWs_stripList (u : List Char) :
    dropLeadingWs (stripList u) = stripList u := by
  unfold stripList
  rcases dropLeadingWs_shape u with h | ⟨c, t, h, hw⟩
  · rw [h, dropTrailWs_nil]
    rfl
  · rw [h]
    rcases dropTrailWs_cons_shape c t with h2 | ⟨t2, h2⟩
    · rw [h2]
      rfl
    · rw [h2]
      unfold dropLeadingWs
      rw [List.dropWhile_cons, if_neg (by simp [hw])]

theorem stripList_idem (u : List Char) : stripList (stripList u) = stripList u := by
  show dropTrailWs (dropLeadingWs (stripList u)) = stripList u
  rw [dropLeadingWs_stripList]
  show dropTrailWs (dropTrailWs (dropLeadingWs u)) = stripList u
  rw [dropTrailWs_idem]
  rfl

theorem stripList_append_nl (u : List Char) :
    stripList (dropTrailWs (dropLeadingWs u ++ ['\n'])) = stripList u := by
  rw [dropTrailWs_append_nl]
  show stripList (dropTrailWs (dropLeadingWs u)) = stripList u
  rw [show dropTrailWs (dropLeadingWs u) = stripList u from rfl]
  exact stripList_idem u

theorem stripList_all_ws {u : List Char} (h : countLeadingWs u = u.length) :
    stripList u = [] := by
  unfold stripList
  rw [dropLeadingWs_eq_drop, h]
  simp [dropTrailWs_nil]

theorem update_esp32_html_eq_some {W S W1 : List Char}
    (h : update_esp32_html W S = some W1) :
    ∃ s e c, findSub assignTok W = some s ∧
      findSubFrom endMarker W (s + assignTok.length) = some e ∧
      findSubFrom closeNlTok W e = some c ∧
      W1 = W.take (s + assignTok.length) ++ '\n' :: (S ++ '\n' :: W.drop c) := by
  cases h1 : findSub assignTok W with
  | none =>
      simp only [update_esp32_html, h1] at h
      cases h
  | some s =>
      cases h2 : findSubFrom endMarker W (s + assignTok.length) with
      | none =>
          simp only [update_esp32_html, h1, h2] at h
          cases h
      | some e =>
          cases h3 : findSubFrom closeNlTok W e with
          | none =>
              simp only [update_esp32_html, h1, h2, h3] at h
              cases h
          | some c =>
              simp only [update_esp32_html, h1, h2, h3, Option.some.injEq] at h
              exact ⟨s, e, c, rfl, h2, h3, h.symm⟩

theorem update_esp32_html_intro {W S : List Char} {s e c : Nat}
    (h1 : findSub assignTok W = some s)
    (h2 : findSubFrom endMarker W (s + assignTok.length) = some e)
    (h3 : findSubFrom closeNlTok W e = some c) :
    update_esp32_html W S =
      some (W.take (s + assignTok.length) ++ '\n' :: (S ++ '\n' :: W.drop c)) := by
  simp only [update_esp32_html, h1, h2, h3]

/-- C3 counterexample. The splicer succeeds once on `inoMin` with the
standalone content `ok` (which contains no sync end-marker), producing a
document whose literal no longer holds the end marker; the second run with
the same content then fails instead of succeeding. -/
theorem C3_counterexample :
    update_esp32_html inoMin "ok".toList = some ("String html = R\"(\nok\n)\";\n".toList) ∧
    update_esp32_html ("String html = R\"(\nok\n)\";\n".toList) "ok".toList = none := by
  decide

/-- C3 (amended). For a standalone document whose content contains the sync
end-marker and contains no occurrence of the literal-closing token `)";`
(the shape the tool's own file convention guarantees), a second run of the
update operation with the unchanged standalone content succeeds and yields
byte-identical firmware document content. -/
theorem C3_second_update (W S W1 : List Char)
    (hS : containsSub closeTok S = false)
    (hM : containsSub endMarker S = true)
    (h1 : update_esp32_html W S = some W1) :
    update_esp32_html W1 S = some W1 := by
  obtain ⟨s, e, c, hs, he, hc, hW1⟩ := update_esp32_html_eq_some h1
  obtain ⟨hsat, -⟩ := findSub_eq_some.mp hs
  obtain ⟨hce, hcat, -⟩ := findSubFrom_eq_some.mp hc
  have hslen : s + assignTok.length ≤ W.length := listAt_length_le hsat (by decide)
  set P : List Char := W.take (s + assignTok.length) with hP
  set Q : List Char := W.drop c with hQdef
  have hPlen : P.length = s + assignTok.length := by
    rw [hP]
    simp only [List.length_take]
    omega
  have hQ0 : listAt closeNlTok Q 0 := by
    rw [hQdef]
    refine listAt_drop_shift.mpr ?_
    rw [Nat.add_zero]
    exact hcat
  obtain ⟨m1, hm1⟩ : ∃ m1, findSub endMarker S = some m1 := by
    rcases containsSub_iff.mp hM with ⟨m, hm⟩
    rcases findSub_le_of_listAt hm with ⟨n, -, hn⟩
    exact ⟨n, hn⟩
  have hm1len : m1 + endMarker.length ≤ S.length :=
    listAt_length_le (findSub_eq_some.mp hm1).1 (by decide)
  have hstep1 : findSub assignTok W1 = some s := by
    rw [hW1]
    exact findSub_take_append hs (by omega) hslen
  have hstep2 : findSubFrom endMarker W1 (s + assignTok.length) = some (P.length + 1 + m1) := by
    rw [hW1, show s + assignTok.length = P.length from hPlen.symm]
    exact marker_first_spliced hm1
  have hstep3 : findSubFrom closeNlTok W1 (P.length + 1 + m1) =
      some (P.length + 1 + S.length + 1) := by
    rw [hW1, findSubFrom_eq_some]
    refine ⟨by omega, close_at_spliced hQ0, ?_⟩
    intro m hge hlt hat
    exact no_close_in_spliced hS (listAt_mono closeTok closeNlTok (by decide) hat) (by omega) (by omega)
  rw [update_esp32_html_intro (S := S) hstep1 hstep2 hstep3]
  have htake1 : W1.take (s + assignTok.length) = P := by
    rw [hW1, show s + assignTok.length = P.length from hPlen.symm, List.take_left]
  have hdrop1 : W1.drop (P.length + 1 + S.length + 1) = Q := by
    rw [hW1, show P.length + 1 + S.length + 1 = P.length + ((S.length + 1) + 1) by omega,
      List.drop_append, List.drop_succ_cons,
      show S.length + 1 = S.length + 1 from rfl, List.drop_append 1, List.drop_succ_cons,
      List.drop_zero]
  rw [htake1, hdrop1, ← hW1]

/-- Witness for C3: splicing the end-marker line itself into `inoMin`
reproduces `inoMin`, and the theorem applies to give the same content again
on the second run. -/
theorem C3_witness : update_esp32_html inoMin endMarker = some inoMin :=
  C3_second_update inoMin endMarker inoMin (by decide) (by decide) (by decide)

/-- C2 counterexample. The firmware document `inoMin` has no handler routine,
yet the splicer succeeds on it; the firmware extractor then fails on the
result instead of returning the spliced content `ok` — so update followed by
extraction does not yield the standalone content back. -/
theorem C2_counterexample :
    containsSub closeTok "ok".toList = false ∧
    update_esp32_html inoMin "ok".toList = some ("String html = R\"(\nok\n)\";\n".toList) ∧
    extract_html_from_ino ("String html = R\"(\nok\n)\";\n".toList) = none := by
  decide

/-- C2 (amended). For a standalone content `S` with no occurrence of the
literal-closing token `)";`, and a firmware document on which the splicer
succeeds and in which the handler-routine opening occurs ending at or before
the (first) literal-opening token, splicing `S` in and then running the
firmware extractor on the result yields `S` trimmed of leading and trailing
whitespace. -/
theorem C2_round_trip (W S : List Char) (s e c i : Nat)
    (hS : containsSub closeTok S = false)
    (hopen : findSub assignTok W = some s)
    (hmark : findSubFrom endMarker W (s + assignTok.length) = some e)
    (hclose : findSubFrom closeNlTok W e = some c)
    (hhand : findSub handlerTok W = some i)
    (hfit : i + handlerTok.length ≤ s) :
    update_esp32_html W S =
      some (W.take (s + assignTok.length) ++ '\n' :: (S ++ '\n' :: W.drop c)) ∧
    extract_html_from_ino (W.take (s + assignTok.length) ++ '\n' :: (S ++ '\n' :: W.drop c)) =
      some (stripList S) := by
  refine ⟨update_esp32_html_intro hopen hmark hclose, ?_⟩
  obtain ⟨hsat, hsmin⟩ := findSub_eq_some.mp hopen
  obtain ⟨hce, hcat, -⟩ := findSubFrom_eq_some.mp hclose
  have hslen : s + assignTok.length ≤ W.length := listAt_length_le hsat (by decide)
  set P : List Char := W.take (s + assignTok.length) with hP
  set Q : List Char := W.drop c with hQdef
  set W1 : List Char := P ++ '\n' :: (S ++ '\n' :: Q) with hW1
  have hPlen : P.length = s + assignTok.length := by
    rw [hP]
    simp only [List.length_take]
    omega
  have hQ0 : listAt closeNlTok Q 0 := by
    rw [hQdef]
    refine listAt_drop_shift.mpr ?_
    rw [Nat.add_zero]
    exact hcat
  have hstepA : findSub handlerTok W1 = some i := by
    rw [hW1, hP]
    exact findSub_take_append hhand (by omega) hslen
  have hstepB : findSubFrom assignTok W1 (i + handlerTok.length) = some s := by
    rw [findSubFrom_eq_some]
    refine ⟨hfit.trans (by omega), ?_, ?_⟩
    · rw [hW1]
      exact (listAt_append_left (by omega)).mpr ((listAt_take_iff hslen (by omega)).mpr hsat)
    · intro m hge hlt hat
      rw [hW1] at hat
      have hat2 : listAt assignTok P m := (listAt_append_left (by omega)).mp hat
      exact hsmin m hlt ((listAt_take_iff hslen (by omega)).mp hat2)
  have hdropP : W1.drop (s + assignTok.length) = '\n' :: (S ++ '\n' :: Q) := by
    rw [hW1, show s + assignTok.length = P.length from hPlen.symm, List.drop_left]
  have hcount : countLeadingWs (W1.drop (s + assignTok.length)) =
      1 + countLeadingWs (S ++ '\n' :: Q) := by
    rw [hdropP, countLeadingWs_cons_ws (by decide)]
  rcases lt_or_eq_of_le (countLeadingWs_le S) with hws | hws
  · -- `S` has a non-whitespace character: the greedy run stops inside `S`
    have hd : countLeadingWs (S ++ '\n' :: Q) = countLeadingWs S :=
      countLeadingWs_append_lt hws
    have hstepD : findSubFrom closeTok W1
        (s + assignTok.length + countLeadingWs (W1.drop (s + assignTok.length))) =
        some (P.length + 1 + S.length + 1) := by
      rw [hcount, hd, findSubFrom_eq_some]
      refine ⟨by omega, listAt_mono closeTok closeNlTok (by decide) (by rw [hW1] at *; exact close_at_spliced hQ0), ?_⟩
      intro m hge hlt hat
      rw [hW1] at hat
      exact no_close_in_spliced hS hat (by omega) (by omega)
    simp only [extract_html_from_ino, hstepA, hstepB, hstepD, Option.some.injEq]
    have hslice : sliceList W1
        (s + assignTok.length + countLeadingWs (W1.drop (s + assignTok.length)))
        (P.length + 1 + S.length + 1) = dropLeadingWs S ++ ['\n'] := by
      unfold sliceList
      rw [hcount, hd]
      have hdrop2 : W1.drop (s + assignTok.length + (1 + countLeadingWs S)) =
          S.drop (countLeadingWs S) ++ '\n' :: Q := by
        rw [hW1, show s + assignTok.length + (1 + countLeadingWs S) =
          P.length + (countLeadingWs S + 1) by omega, List.drop_append, List.drop_succ_cons,
          List.drop_append_of_le_length (by omega)]
      rw [hdrop2]
      have hlen2 : (S.drop (countLeadingWs S)).length = S.length - countLeadingWs S := by
        simp [List.length_drop]
      rw [show P.length + 1 + S.length + 1 - (s + assignTok.length + (1 + countLeadingWs S)) =
        (S.length - countLeadingWs S) + 1 by omega]
      rw [← hlen2, List.take_append, dropLeadingWs_eq_drop]
      simp
    rw [hslice]
    exact stripList_append_nl S
  · -- `S` is all whitespace: the greedy run swallows `S` and both newlines
    have hq0c : Q[0]? = some ')' := by
      have := listAt_getElem hQ0 (k := 0) (by decide)
      have hcl : closeNlTok[0]? = some ')' := by decide
      rw [hcl] at this
      simpa using this
    have hd : countLeadingWs (S ++ '\n' :: Q) = S.length + 1 := by
      rw [countLeadingWs_append_all hws, countLeadingWs_cons_ws (by decide),
        countLeadingWs_eq_zero hq0c (by decide)]
    have hstepD : findSubFrom closeTok W1
        (s + assignTok.length + countLeadingWs (W1.drop (s + assignTok.length))) =
        some (P.length + 1 + S.length + 1) := by
      rw [hcount, hd, findSubFrom_eq_some]
      refine ⟨by omega, listAt_mono closeTok closeNlTok (by decide) (by rw [hW1] at *; exact close_at_spliced hQ0), ?_⟩
      intro m hge hlt hat
      omega
    simp only [extract_html_from_ino, hstepA, hstepB, hstepD, Option.some.injEq]
    have hslice : sliceList W1
        (s + assignTok.length + countLeadingWs (W1.drop (s + assignTok.length)))
        (P.length + 1 + S.length + 1) = [] := by
      unfold sliceList
      rw [hcount, hd]
      rw [show P.length + 1 + S.length + 1 - (s + assignTok.length + (1 + (S.length + 1))) = 0
        by omega]
      simp
    rw [hslice, stripList_all_ws hws]
    rfl

/-- Witness for C2 at the concrete firmware document `inoHandler` and the
standalone content `" <div>hi</div> "`: update then extraction returns the
trimmed content `<div>hi</div>`. -/
theorem C2_witness :
    extract_html_from_ino (inoHandler.take (22 + assignTok.length) ++
      '\n' :: (" <div>hi</div> ".toList ++ '\n' :: inoHandler.drop 99)) =
      some (stripList " <div>hi</div> ".toList) :=
  (C2_round_trip inoHandler " <div>hi</div> ".toList 22 40 99 0
    (by decide) (by decide) (by decide) (by decide) (by decide) (by decide)).2

/-! Invariants of whitespace-collapsed text, used for the normalisation
idempotence claim: after `collapseWs` every whitespace character is a single
space with a non-whitespace successor (`wsNormal`), and after `collapseTagWs`
no `>`-whitespace-`<` pattern remains (`hasTagWs` is false).  Both invariants
survive `stripList`, which makes the whitespace pipeline idempotent. -/

/-- Every whitespace character in the list is a space, and no two adjacent
characters are both whitespace. -/
def wsNormal : List Char → Bool
  | [] => true
  | [c] => !(pyWs c) || (c == ' ')
  | c :: d :: rest => (if pyWs c then (c == ' ') && !(pyWs d) else true) && wsNormal (d :: rest)

theorem wsNormal_tail {c : Char} {cs : List Char} (h : wsNormal (c :: cs) = true) :
    wsNormal cs = true := by
  cases cs with
  | nil => rfl
  | cons d t =>
      unfold wsNormal at h
      rw [Bool.and_eq_true] at h
      exact h.2

theorem wsNormal_cons_not {c : Char} {cs : List Char} (hc : pyWs c = false)
    (h : wsNormal cs = true) : wsNormal (c :: cs) = true := by
  cases cs with
  | nil => simp [wsNormal, hc]
  | cons d t =>
      unfold wsNormal
      rw [if_neg (by simp [hc])]
      simpa using h

theorem wsNormal_space_cons {d : Char} {t : List Char} (hd : pyWs d = false)
    (h : wsNormal (d :: t) = true) : wsNormal (' ' :: d :: t) = true := by
  unfold wsNormal
  rw [if_pos (by decide)]
  simp [hd]
  exact h

theorem wsNormal_pair {c d : Char} {rest : List Char}
    (h : wsNormal (c :: d :: rest) = true) :
    (if pyWs c then (c == ' ') && !(pyWs d) else true) = true := by
  unfold wsNormal at h
  rw [Bool.and_eq_true] at h
  exact h.1

theorem collapseWs_head_not {d : Char} (hd : pyWs d = false) (rest : List Char) :
    ∃ t, collapseWs (d :: rest) = d :: t := by
  cases rest with
  | nil => exact ⟨[], by simp [collapseWs, hd]⟩
  | cons e r => exact ⟨collapseWs (e :: r), by simp [collapseWs, hd]⟩

theorem wsNormal_collapseWs : ∀ (s : List Char), wsNormal (collapseWs s) = true := by
  intro s
  induction s with
  | nil => rfl
  | cons c cs ih =>
      cases cs with
      | nil =>
          by_cases h : pyWs c
          · rw [show collapseWs [c] = [' '] from by simp [collapseWs, h]]
            decide
          · rw [show collapseWs [c] = [c] from by simp [collapseWs, h]]
            unfold wsNormal
            simp [h]
      | cons d rest =>
          by_cases h : pyWs c
          · by_cases h2 : pyWs d
            · rw [show collapseWs (c :: d :: rest) = collapseWs (d :: rest) from by
                simp [collapseWs, h, h2]]
              exact ih
            · rw [show collapseWs (c :: d :: rest) = ' ' :: collapseWs (d :: rest) from by
                simp [collapseWs, h, h2]]
              obtain ⟨t, ht⟩ := collapseWs_head_not (by simpa using h2) rest
              rw [ht]
              exact wsNormal_space_cons (by simpa using h2) (ht ▸ ih)
          · rw [show collapseWs (c :: d :: rest) = c :: collapseWs (d :: rest) from by
              simp [collapseWs, h]]
            exact wsNormal_cons_not (by simpa using h) ih

theorem collapseWs_of_wsNormal : ∀ (s : List Char), wsNormal s = true → collapseWs s = s := by
  intro s
  induction s with
  | nil =>
      intro _
      rfl
  | cons c cs ih =>
      intro hws
      cases cs with
      | nil =>
          by_cases h : pyWs c
          · have hsp : c = ' ' := by
              unfold wsNormal at hws
              rw [show (!(pyWs c) || (c == ' ')) = (c == ' ') from by simp [h]] at hws
              simpa using hws
            rw [show collapseWs [c] = [' '] from by simp [collapseWs, h], hsp]
          · simp [collapseWs, h]
      | cons d rest =>
          have htail := wsNormal_tail hws
          have hp := wsNormal_pair hws
          by_cases h : pyWs c
          · rw [if_pos h, Bool.and_eq_true] at hp
            obtain ⟨hsp, hnd⟩ := hp
            have hc : c = ' ' := by simpa using hsp
            have hd : pyWs d = false := by simpa using hnd
            rw [show collapseWs (c :: d :: rest) = ' ' :: collapseWs (d :: rest) from by
              simp [collapseWs, h, hd], ih htail, hc]
          · rw [show collapseWs (c :: d :: rest) = c :: collapseWs (d :: rest) from by
              simp [collapseWs, h], ih htail]

/-- The inter-tag whitespace pattern `>` whitespace⁺ `<` occurs somewhere in
the list. -/
def hasTagWs : List Char → Bool
  | [] => false
  | c :: cs => ((c == '>') && (wsThenLt cs).isSome) || hasTagWs cs

theorem hasTagWs_tail {c : Char} {cs : List Char} (h : hasTagWs (c :: cs) = false) :
    hasTagWs cs = false := by
  unfold hasTagWs at h
  exact (Bool.or_eq_false_iff.mp h).2

theorem wsThenLt_cons_ws {c d : Char} {r : List Char} (hc : pyWs c = true) :
    wsThenLt (c :: d :: r) = if d = '<' then some r else wsThenLt (d :: r) := by
  show (if pyWs c = true then (if d = '<' then some r else wsThenLt (d :: r)) else none) =
    if d = '<' then some r else wsThenLt (d :: r)
  rw [if_pos hc]

theorem wsThenLt_cons_one (c : Char) : wsThenLt [c] = none := rfl

theorem wsThenLt_cons_not {c : Char} {cs : List Char} (hc : pyWs c = false) :
    wsThenLt (c :: cs) = none := by
  cases cs with
  | nil => rfl
  | cons d r =>
      show (if pyWs c = true then (if d = '<' then some r else wsThenLt (d :: r)) else none) = none
      rw [if_neg (by simp [hc])]

theorem collapseTagWs_head (c : Char) (cs : List Char) :
    ∃ t, collapseTagWs (c :: cs) = c :: t := by
  by_cases h : c = '>'
  · subst h
    cases hr : wsThenLt cs with
    | some r => exact ⟨'<' :: collapseTagWs r, collapseTagWs_cons_match hr⟩
    | none => exact ⟨collapseTagWs cs, collapseTagWs_cons_gt_none hr⟩
  · exact ⟨collapseTagWs cs, collapseTagWs_cons_ne h⟩

theorem wsThenLt_some_drop : ∀ (cs r : List Char), wsThenLt cs = some r →
    ∃ k, r = cs.drop k := by
  intro cs
  induction cs with
  | nil =>
      intro r h
      cases h
  | cons c cs2 ih =>
      intro r h
      by_cases hw : pyWs c
      · cases cs2 with
        | nil =>
            rw [wsThenLt_cons_one] at h
            cases h
        | cons d r2 =>
            rw [wsThenLt_cons_ws hw] at h
            by_cases hd : d = '<'
            · rw [if_pos hd] at h
              injection h with h
              exact ⟨2, h.symm⟩
            · rw [if_neg hd] at h
              obtain ⟨k, hk⟩ := ih r h
              exact ⟨k + 1, by simpa using hk⟩
      · rw [wsThenLt_cons_not (by simpa using hw)] at h
        cases h

theorem wsThenLt_none_ctw : ∀ (cs : List Char), wsThenLt cs = none →
    wsThenLt (collapseTagWs cs) = none := by
  intro cs
  induction cs with
  | nil =>
      intro _
      rfl
  | cons c cs2 ih =>
      intro h
      by_cases hw : pyWs c
      · have hcne : ¬ c = '>' := by
          intro he
          subst he
          exact absurd hw (by decide)
        rw [collapseTagWs_cons_ne hcne]
        cases cs2 with
        | nil =>
            rw [collapseTagWs_nil, wsThenLt_cons_one]
        | cons d r =>
            rw [wsThenLt_cons_ws hw] at h
            by_cases hd : d = '<'
            · rw [if_pos hd] at h
              cases h
            · rw [if_neg hd] at h
              obtain ⟨t, ht⟩ := collapseTagWs_head d r
              rw [ht, wsThenLt_cons_ws hw, if_neg hd, ← ht]
              exact ih h
      · obtain ⟨t, ht⟩ := collapseTagWs_head c cs2
        rw [ht, wsThenLt_cons_not (by simpa using hw)]

theorem hasTagWs_ctw_aux : ∀ (n : Nat) (s : List Char), s.length ≤ n →
    hasTagWs (collapseTagWs s) = false := by
  intro n
  induction n with
  | zero =>
      intro s hs
      have hnil : s = [] := by
        cases s
        · rfl
        · simp at hs
      subst hnil
      rfl
  | succ n ih =>
      intro s hs
      cases s with
      | nil => rfl
      | cons c cs =>
          have hcs : cs.length ≤ n := by
            simp only [List.length_cons] at hs
            omega
          by_cases hc : c = '>'
          · subst hc
            cases hr : wsThenLt cs with
            | some r =>
                rw [collapseTagWs_cons_match hr]
                have hrlen := wsThenLt_length hr
                have h1 : wsThenLt ('<' :: collapseTagWs r) = none :=
                  wsThenLt_cons_not (by decide)
                have h2 : hasTagWs (collapseTagWs r) = false := ih r (by omega)
                simp [hasTagWs, h1, h2]
            | none =>
                rw [collapseTagWs_cons_gt_none hr]
                have h1 : wsThenLt (collapseTagWs cs) = none := wsThenLt_none_ctw cs hr
                have h2 := ih cs hcs
                simp [hasTagWs, h1, h2]
          · rw [collapseTagWs_cons_ne hc]
            have h2 := ih cs hcs
            have h3 : (c == '>') = false := by simp [hc]
            simp [hasTagWs, h2, h3]

theorem hasTagWs_ctw (s : List Char) : hasTagWs (collapseTagWs s) = false :=
  hasTagWs_ctw_aux s.length s (le_refl _)

theorem collapseTagWs_of_no_pattern : ∀ (s : List Char), hasTagWs s = false →
    collapseTagWs s = s := by
  intro s
  induction s with
  | nil =>
      intro _
      rfl
  | cons c cs ih =>
      intro h
      have htail := hasTagWs_tail h
      by_cases hc : c = '>'
      · subst hc
        have h1 : ((('>' : Char) == '>') && (wsThenLt cs).isSome) = false := by
          unfold hasTagWs at h
          exact (Bool.or_eq_false_iff.mp h).1
        have h2 : wsThenLt cs = none := by
          cases hx : wsThenLt cs with
          | none => rfl
          | some r =>
              rw [hx] at h1
              simp at h1
        rw [collapseTagWs_cons_gt_none h2, ih htail]
      · rw [collapseTagWs_cons_ne hc, ih htail]

theorem wsNormal_drop : ∀ (k : Nat) (l : List Char), wsNormal l = true →
    wsNormal (l.drop k) = true := by
  intro k
  induction k with
  | zero =>
      intro l h
      simpa using h
  | succ k ih =>
      intro l h
      cases l with
      | nil => rfl
      | cons c cs =>
          rw [List.drop_succ_cons]
          exact ih cs (wsNormal_tail h)

theorem wsNormal_ctw_aux : ∀ (n : Nat) (s : List Char), s.length ≤ n →
    wsNormal s = true → wsNormal (collapseTagWs s) = true := by
  intro n
  induction n with
  | zero =>
      intro s hs _
      have hnil : s = [] := by
        cases s
        · rfl
        · simp at hs
      subst hnil
      rfl
  | succ n ih =>
      intro s hs hws
      cases s with
      | nil => rfl
      | cons c cs =>
          have hcs : cs.length ≤ n := by
            simp only [List.length_cons] at hs
            omega
          by_cases hc : c = '>'
          · subst hc
            cases hr : wsThenLt cs with
            | some r =>
                rw [collapseTagWs_cons_match hr]
                obtain ⟨k, hk⟩ := wsThenLt_some_drop cs r hr
                have hrws : wsNormal r = true := by
                  rw [hk]
                  exact wsNormal_drop k cs (wsNormal_tail hws)
                have hrlen := wsThenLt_length hr
                have hmain := ih r (by omega) hrws
                exact wsNormal_cons_not (by decide) (wsNormal_cons_not (by decide) hmain)
            | none =>
                rw [collapseTagWs_cons_gt_none hr]
                exact wsNormal_cons_not (by decide) (ih cs hcs (wsNormal_tail hws))
          · by_cases hw : pyWs c
            · rw [collapseTagWs_cons_ne hc]
              cases cs with
              | nil =>
                  rw [collapseTagWs_nil]
                  exact hws
              | cons d rest =>
                  have hp := wsNormal_pair hws
                  rw [if_pos hw, Bool.and_eq_true] at hp
                  have hc2 : c = ' ' := by simpa using hp.1
                  have hd : pyWs d = false := by simpa using hp.2
                  obtain ⟨t, ht⟩ := collapseTagWs_head d rest
                  rw [ht, hc2]
                  exact wsNormal_space_cons hd
                    (ht ▸ ih (d :: rest) hcs (wsNormal_tail hws))
            · rw [collapseTagWs_cons_ne hc]
              exact wsNormal_cons_not (by simpa using hw) (ih cs hcs (wsNormal_tail hws))

theorem wsNormal_ctw (s : List Char) (h : wsNormal s = true) :
    wsNormal (collapseTagWs s) = true :=
  wsNormal_ctw_aux s.length s (le_refl _) h

theorem wsNormal_take : ∀ (l : List Char) (n : Nat), wsNormal l = true →
    wsNormal (l.take n) = true := by
  intro l
  induction l with
  | nil =>
      intro n _
      rw [List.take_nil]
      rfl
  | cons c cs ih =>
      intro n h
      cases n with
      | zero => rfl
      | succ n =>
          rw [List.take_succ_cons]
          cases cs with
          | nil =>
              rw [List.take_nil]
              exact h
          | cons d rest =>
              have hp := wsNormal_pair h
              cases n with
              | zero =>
                  rw [List.take_zero]
                  show wsNormal [c] = true
                  unfold wsNormal
                  by_cases hw : pyWs c
                  · rw [if_pos hw, Bool.and_eq_true] at hp
                    simp [hw, hp.1]
                  · simp [hw]
              | succ m =>
                  rw [List.take_succ_cons]
                  have htl := ih (m + 1) (wsNormal_tail h)
                  rw [List.take_succ_cons] at htl
                  show ((if pyWs c then (c == ' ') && !(pyWs d) else true) &&
                    wsNormal (d :: rest.take m)) = true
                  rw [Bool.and_eq_true]
                  exact ⟨hp, htl⟩

theorem hasTagWs_drop : ∀ (k : Nat) (l : List Char), hasTagWs l = false →
    hasTagWs (l.drop k) = false := by
  intro k
  induction k with
  | zero =>
      intro l h
      simpa using h
  | succ k ih =>
      intro l h
      cases l with
      | nil => rfl
      | cons c cs =>
          rw [List.drop_succ_cons]
          exact ih cs (hasTagWs_tail h)

theorem wsThenLt_take : ∀ (l : List Char) (n : Nat) (r : List Char),
    wsThenLt (l.take n) = some r → (wsThenLt l).isSome = true := by
  intro l
  induction l with
  | nil =>
      intro n r h
      rw [List.take_nil] at h
      cases h
  | cons c cs ih =>
      intro n r h
      cases n with
      | zero =>
          rw [List.take_zero] at h
          cases h
      | succ n =>
          rw [List.take_succ_cons] at h
          by_cases hw : pyWs c
          · cases cs with
            | nil =>
                rw [List.take_nil, wsThenLt_cons_one] at h
                cases h
            | cons d rest =>
                cases n with
                | zero =>
                    rw [List.take_zero, wsThenLt_cons_one] at h
                    cases h
                | succ m =>
                    rw [List.take_succ_cons, wsThenLt_cons_ws hw] at h
                    by_cases hd : d = '<'
                    · rw [wsThenLt_cons_ws hw, if_pos hd]
                      simp
                    · rw [if_neg hd] at h
                      have hrec := ih (m + 1) r (by rw [List.take_succ_cons]; exact h)
                      rw [wsThenLt_cons_ws hw, if_neg hd]
                      exact hrec
          · rw [wsThenLt_cons_not (by simpa using hw)] at h
            cases h

theorem hasTagWs_take : ∀ (l : List Char) (n : Nat), hasTagWs l = false →
    hasTagWs (l.take n) = false := by
  intro l
  induction l with
  | nil =>
      intro n _
      rw [List.take_nil]
      rfl
  | cons c cs ih =>
      intro n h
      cases n with
      | zero => rfl
      | succ n =>
          rw [List.take_succ_cons]
          unfold hasTagWs at h ⊢
          rcases Bool.or_eq_false_iff.mp h with ⟨h1, h2⟩
          rw [Bool.or_eq_false_iff]
          refine ⟨?_, ih n h2⟩
          cases hsome : (wsThenLt (cs.take n)).isSome with
          | false => simp [hsome]
          | true =>
              obtain ⟨r, hr⟩ := Option.isSome_iff_exists.mp hsome
              have hfull := wsThenLt_take cs n r hr
              have hcgt : (c == '>') = false := by
                cases hcc : (c == '>') with
                | false => rfl
                | true =>
                    rw [hcc, hfull] at h1
                    simp at h1
              simp [hcgt]

theorem dropTrailWs_eq_take (l : List Char) :
    dropTrailWs l = l.take (l.length - countLeadingWs l.reverse) := by
  unfold dropTrailWs
  rw [dropWhile_eq_drop, List.reverse_drop, List.reverse_reverse, List.length_reverse]
  rfl

theorem wsNormal_stripList {u : List Char} (h : wsNormal u = true) :
    wsNormal (stripList u) = true := by
  unfold stripList
  rw [dropTrailWs_eq_take, dropLeadingWs_eq_drop]
  exact wsNormal_take _ _ (wsNormal_drop _ _ h)

theorem hasTagWs_stripList {u : List Char} (h : hasTagWs u = false) :
    hasTagWs (stripList u) = false := by
  unfold stripList
  rw [dropTrailWs_eq_take, dropLeadingWs_eq_drop]
  exact hasTagWs_take _ _ (hasTagWs_drop _ _ h)

/-- C5 counterexample. Removing the comment `<!-- c -->` from
`<!<!-- c -->-- note -->` splices the remaining characters into the new
comment `<!-- note -->`, which the first pass keeps (it scans left to right)
but a second normalisation deletes: the normalizer is not idempotent. -/
theorem C5_counterexample :
    normalize_html (normalize_html "<!<!-- c -->-- note -->".toList) ≠
      normalize_html "<!<!-- c -->-- note -->".toList := by
  decide

/-- C5 (amended). The normalizer is idempotent on every input whose
normalised form is left unchanged by the comment-removal pass — in
particular whenever comment removal creates no new comment-delimited region
(the whitespace passes are always idempotent, as the proof shows): for such
inputs `normalize (normalize x) = normalize x`.  In general idempotence can
fail, because deleting a comment can splice together a new comment. -/
theorem C5_normalize_idem (x : List Char)
    (h : removeComments (normalize_html x) = normalize_html x) :
    normalize_html (normalize_html x) = normalize_html x := by
  by_cases hx : x.isEmpty
  · have hxe : normalize_html x = [] := by simp [normalize_html, hx]
    rw [hxe]
    rfl
  · have hyform : normalize_html x =
        stripList (collapseTagWs (collapseWs (removeComments x))) := by
      simp [normalize_html, hx]
    by_cases hyE : (normalize_html x).isEmpty
    · have hynil : normalize_html x = [] := by
        cases hcase : normalize_html x with
        | nil => rfl
        | cons a t =>
            rw [hcase] at hyE
            simp at hyE
      rw [hynil]
      rfl
    · have hyE2 : (normalize_html x).isEmpty = false := by
        cases hb : (normalize_html x).isEmpty with
        | false => rfl
        | true => exact absurd hb hyE
      have hstep : normalize_html (normalize_html x) =
          stripList (collapseTagWs (collapseWs (removeComments (normalize_html x)))) := by
        show (if (normalize_html x).isEmpty = true then [] else
          stripList (collapseTagWs (collapseWs (removeComments (normalize_html x))))) =
          stripList (collapseTagWs (collapseWs (removeComments (normalize_html x))))
        rw [hyE2]
        simp
      rw [hstep, h]
      have hws : wsNormal (normalize_html x) = true := by
        rw [hyform]
        exact wsNormal_stripList (wsNormal_ctw _ (wsNormal_collapseWs _))
      have htag : hasTagWs (normalize_html x) = false := by
        rw [hyform]
        exact hasTagWs_stripList (hasTagWs_ctw _)
      rw [collapseWs_of_wsNormal _ hws, collapseTagWs_of_no_pattern _ htag, hyform,
        stripList_idem]

/-- Witness for C5 at a concrete input with collapsible whitespace and no
comments: its normalised form is a fixed point of comment removal, so
normalisation is idempotent there. -/
theorem C5_witness :
    normalize_html (normalize_html "<div>  a  </div>".toList) =
      normalize_html "<div>  a  </div>".toList :=
  C5_normalize_idem "<div>  a  </div>".toList (by decide)

end SwimPacer
